import Mathlib

/-!
Verification of the Netpbm repository (pbm.go, ppm.go).

The Go code is shallowly embedded:

* byte streams are `List Nat` (each entry one byte; only ASCII bytes and
  binary P4 row bytes occur);
* Go `int` is modelled as `ℤ` (or `ℕ` for values that are provably
  nonnegative, such as slice lengths), with explicit `% 256` / `% 2^16` /
  int64-range checks exactly where the Go code converts or `strconv` would
  report a range error;
* `float64` is modelled exactly: doubles are the rationals of the form
  m·2^s with |m| < 2^53, and every Go float operation is "exact rational
  operation followed by `fl`", where `fl` is IEEE-754 round-to-nearest,
  ties-to-even (the values occurring in this code never leave the normal
  range, so overflow/subnormal handling is not required);
* a decode (`ReadPBM`/`ReadPGM`/`ReadPPM`) consumes a byte stream (the
  file's contents; `os.Open` errors are the caller's I/O concern and out of
  scope) and yields `DRes`: `.ok`, `.err` (a returned `error`), or `.panic`
  (a Go runtime panic, e.g. out-of-range slice indexing or `make` with a
  negative size); buffering internals of `bufio` (buffer sizes, the
  `Scanner` 64KiB token limit) are idealized as unbounded;
* `Save` produces the byte stream written to the file;
* a drawing operation returns `Option PPM`: `none` models the panic raised
  by the unchecked `Set` when a computed pixel is out of bounds.
-/

/-- Byte streams: file contents and `string` values, one `ℕ` per byte. -/
abbrev Bytes : Type := List Nat

/-- Bytes of an ASCII string literal. -/
def str (s : String) : Bytes := s.toList.map Char.toNat

/-- Go `unicode.IsSpace` restricted to ASCII: space, \t, \n, \v, \f, \r. -/
def isWS (c : Nat) : Bool := c = 32 || c = 9 || c = 10 || c = 11 || c = 12 || c = 13

/-- ASCII decimal digit `'0'..'9'`. -/
def isDigitB (c : Nat) : Bool := 47 < c && c < 58

/-- Little-endian base-10 digits of `n` (fuel-driven so the kernel can
evaluate it; `fuel ≥ n` suffices). -/
def digitsLE : Nat → Nat → List Nat
  | 0, _ => []
  | fuel + 1, n => if n = 0 then [] else n % 10 :: digitsLE fuel (n / 10)

/-- Bytes that Go's `fmt` `%d` prints for the nonnegative integer `n`. -/
def printNat (n : Nat) : Bytes :=
  if n = 0 then [48] else ((digitsLE n n).reverse).map (· + 48)

/-- Value of a big-endian digit-byte list (used by the parsing models). -/
def parseDigitsBE (l : Bytes) : Nat := l.foldl (fun a c => 10 * a + (c - 48)) 0

/-- Value of little-endian base-10 digits. -/
def ofDigitsLE : List Nat → Nat
  | [] => 0
  | d :: t => d + 10 * ofDigitsLE t

theorem digitsLE_sound : ∀ fuel n, n ≤ fuel → ofDigitsLE (digitsLE fuel n) = n := by
  intro fuel
  induction fuel with
  | zero => intro n hn; interval_cases n; simp [digitsLE, ofDigitsLE]
  | succ f ih =>
    intro n hn
    by_cases h0 : n = 0
    · simp [digitsLE, h0, ofDigitsLE]
    · have hdiv : n / 10 ≤ f := by
        have h1 : n / 10 < n := Nat.div_lt_self (Nat.pos_of_ne_zero h0) (by norm_num)
        omega
      simp only [digitsLE, h0, if_false, ofDigitsLE, ih _ hdiv]
      omega

theorem digitsLE_lt_ten : ∀ fuel n, ∀ d ∈ digitsLE fuel n, d < 10 := by
  intro fuel
  induction fuel with
  | zero => intro n d hd; simp [digitsLE] at hd
  | succ f ih =>
    intro n d hd
    by_cases h0 : n = 0
    · simp [digitsLE, h0] at hd
    · simp only [digitsLE, h0, if_false, List.mem_cons] at hd
      rcases hd with h | h
      · subst h; exact Nat.mod_lt _ (by norm_num)
      · exact ih _ _ h

theorem digitsLE_ne_nil : ∀ fuel n, n ≠ 0 → n ≤ fuel → digitsLE fuel n ≠ [] := by
  intro fuel n h0 hn
  cases fuel with
  | zero => omega
  | succ f => simp [digitsLE, h0]

/-- Horner evaluation of reversed digits. -/
theorem foldl_reverse_digits (ds : List Nat) :
    ∀ a, List.foldl (fun a d => 10 * a + d) a ds.reverse = a * 10 ^ ds.length + ofDigitsLE ds := by
  induction ds with
  | nil => intro a; simp [ofDigitsLE]
  | cons d t ih =>
    intro a
    simp only [List.reverse_cons, List.foldl_append, ih, List.foldl_cons, List.foldl_nil,
      ofDigitsLE, List.length_cons]
    ring

theorem parseDigitsBE_printNat (n : Nat) : parseDigitsBE (printNat n) = n := by
  by_cases h0 : n = 0
  · simp [printNat, h0, parseDigitsBE]
  · have hfold : ∀ (l : List Nat) (a : Nat),
        (l.map (· + 48)).foldl (fun x c => 10 * x + (c - 48)) a
          = l.foldl (fun x d => 10 * x + d) a := by
      intro l
      induction l with
      | nil => intro a; rfl
      | cons d t ih => intro a; simp [List.foldl_cons, ih, Nat.add_sub_cancel]
    simp only [printNat, h0, if_false, parseDigitsBE]
    rw [hfold, foldl_reverse_digits, digitsLE_sound n n le_rfl]
    simp only [Nat.zero_mul, Nat.zero_add]

theorem printNat_digits (n : Nat) : ∀ c ∈ printNat n, 48 ≤ c ∧ c < 58 := by
  intro c hc
  by_cases h0 : n = 0
  · simp [printNat, h0] at hc; omega
  · simp only [printNat, h0, if_false, List.mem_map, List.mem_reverse] at hc
    obtain ⟨d, hd, rfl⟩ := hc
    have := digitsLE_lt_ten n n d hd
    omega

theorem printNat_ne_nil (n : Nat) : printNat n ≠ [] := by
  by_cases h0 : n = 0
  · simp [printNat, h0]
  · simp only [printNat, h0, if_false]
    intro h
    exact digitsLE_ne_nil n n h0 le_rfl (by simpa using congrArg List.reverse (by simpa using h))

theorem printNat_not_ws {n : Nat} : ∀ c ∈ printNat n, isWS c = false := by
  intro c hc
  have := printNat_digits n c hc
  simp only [isWS, Bool.or_eq_false_iff, decide_eq_false_iff_not]
  omega

theorem printNat_isDigit {n : Nat} : ∀ c ∈ printNat n, isDigitB c = true := by
  intro c hc
  have := printNat_digits n c hc
  simp only [isDigitB, Bool.and_eq_true, decide_eq_true_eq]
  omega

theorem printNat_no_nl {n : Nat} : ∀ c ∈ printNat n, c ≠ 10 := by
  intro c hc
  have := printNat_digits n c hc
  omega

/-- `bufio.Reader.ReadString('\n')`: the chunk up to and including the first
newline, plus the remaining stream; `none` models the `io.EOF` error path
(no newline before end of data — the callers in pbm.go treat any error,
even with partial data, as failure). -/
def readStringNL : Bytes → Option (Bytes × Bytes)
  | [] => none
  | c :: rest =>
    if c = 10 then some ([10], rest)
    else match readStringNL rest with
      | none => none
      | some (a, b) => some (c :: a, b)

/-- `strings.TrimSpace` (ASCII whitespace). -/
def trimSpace (l : Bytes) : Bytes := ((l.dropWhile isWS).reverse.dropWhile isWS).reverse

/-- Close off the pending token of a `fields` accumulator (empty pending
tokens are not emitted). -/
def fieldsFlush : Bytes × List Bytes → List Bytes
  | ([], acc) => acc
  | (t, acc) => t :: acc

/-- One character of `strings.Fields`, processed right to left: current
pending token and finished tokens. -/
def fieldsStep (c : Nat) (acc : Bytes × List Bytes) : Bytes × List Bytes :=
  if isWS c then ([], fieldsFlush acc) else (c :: acc.1, acc.2)

/-- `strings.Fields`: whitespace-separated tokens, no empties. -/
def fields (s : Bytes) : List Bytes := fieldsFlush (s.foldr fieldsStep ([], []))

/-- `bufio.ScanWords` as used through `scanner.Scan(); scanner.Text()`:
skip leading whitespace, return the maximal non-whitespace token (empty at
end of input, where `Scan` reports false and `Text` is "") and the rest of
the stream. -/
def nextWord (s : Bytes) : Bytes × Bytes :=
  ((s.dropWhile isWS).takeWhile (fun c => !isWS c),
   (s.dropWhile isWS).dropWhile (fun c => !isWS c))

/-- `bufio.ScanLines` drops one trailing carriage return. -/
def dropTrailCR (l : Bytes) : Bytes := if l.getLast? = some 13 then l.dropLast else l

/-- `bufio.ScanLines` through `scanner.Scan(); scanner.Text()` with the
scan result ignored (as ReadPGM does): the next line without its
terminator, and the rest; at end of input `Text` is "". -/
def nextLineT (s : Bytes) : Bytes × Bytes :=
  match readStringNL s with
  | some (chunk, rest) => (dropTrailCR chunk.dropLast, rest)
  | none => (dropTrailCR s, [])

/-- One character of `strings.Split(s, " ")`, processed right to left. -/
def splitStep (c : Nat) (acc : Bytes × List Bytes) : Bytes × List Bytes :=
  if c = 32 then ([], acc.1 :: acc.2) else (c :: acc.1, acc.2)

/-- `strings.Split(s, " ")`: split at every space, keeping empties
(always at least one element). -/
def splitOnSpace (s : Bytes) : List Bytes :=
  (s.foldr splitStep ([], [])).1 :: (s.foldr splitStep ([], [])).2

theorem readStringNL_append (pre rest : Bytes) (h : ∀ c ∈ pre, c ≠ 10) :
    readStringNL (pre ++ 10 :: rest) = some (pre ++ [10], rest) := by
  induction pre with
  | nil => simp [readStringNL]
  | cons c t ih =>
    have hc : c ≠ 10 := h c (by simp)
    have ht : ∀ c ∈ t, c ≠ 10 := fun d hd => h d (by simp [hd])
    simp [readStringNL, hc, ih ht]

theorem dropWhile_eq_self_of_head (p : Nat → Bool) (l : Bytes)
    (h : ∀ c, l.head? = some c → p c = false) : l.dropWhile p = l := by
  cases l with
  | nil => rfl
  | cons c t => simp [List.dropWhile_cons, h c rfl]

theorem trimSpace_eq_self (l : Bytes)
    (h1 : ∀ c, l.head? = some c → isWS c = false)
    (h2 : ∀ c, l.getLast? = some c → isWS c = false) : trimSpace l = l := by
  unfold trimSpace
  rw [dropWhile_eq_self_of_head _ _ h1]
  rw [dropWhile_eq_self_of_head _ _ (by simpa [List.head?_reverse] using h2)]
  simp

theorem trimSpace_concat_nl (pre : Bytes)
    (h1 : ∀ c, pre.head? = some c → isWS c = false)
    (h2 : ∀ c, pre.getLast? = some c → isWS c = false) :
    trimSpace (pre ++ [10]) = pre := by
  cases pre with
  | nil => rfl
  | cons c t =>
    have hc : isWS c = false := h1 c rfl
    unfold trimSpace
    rw [show ((c :: t) ++ [10] : Bytes) = c :: (t ++ [10]) by simp]
    rw [List.dropWhile_cons]
    simp only [hc, Bool.false_eq_true, if_false]
    have hrev : (c :: (t ++ [10]) : Bytes).reverse = 10 :: (t.reverse ++ [c]) := by
      simp
    rw [hrev, List.dropWhile_cons]
    simp only [show isWS 10 = true by rfl, if_true]
    have hdrop : (t.reverse ++ [c] : Bytes).dropWhile isWS = t.reverse ++ [c] := by
      apply dropWhile_eq_self_of_head
      intro d hd
      cases ht : t.reverse with
      | nil =>
        simp [ht] at hd
        subst hd; exact hc
      | cons e u =>
        rw [ht] at hd
        simp only [List.cons_append, List.head?_cons, Option.some_inj] at hd
        apply h2
        have h3 : t.getLast? = some d := by
          rw [← List.head?_reverse, ht, List.head?_cons, hd]
        cases t with
        | nil => simp at ht
        | cons a b => rw [List.getLast?_cons_cons]; exact h3
    rw [hdrop]
    simp

theorem takeWhile_all_append (p : Nat → Bool) (l : Bytes) (c : Nat) (r : Bytes)
    (hl : ∀ x ∈ l, p x = true) (hc : p c = false) :
    (l ++ c :: r).takeWhile p = l := by
  induction l with
  | nil => simp [List.takeWhile_cons, hc]
  | cons a t ih =>
    have ha : p a = true := hl a (by simp)
    simp only [List.cons_append, List.takeWhile_cons, ha, if_true]
    rw [ih (fun x hx => hl x (by simp [hx]))]

theorem dropWhile_all_append (p : Nat → Bool) (l : Bytes) (c : Nat) (r : Bytes)
    (hl : ∀ x ∈ l, p x = true) (hc : p c = false) :
    (l ++ c :: r).dropWhile p = c :: r := by
  induction l with
  | nil => simp [List.dropWhile_cons, hc]
  | cons a t ih =>
    have ha : p a = true := hl a (by simp)
    simp only [List.cons_append, List.dropWhile_cons, ha, if_true]
    exact ih (fun x hx => hl x (by simp [hx]))

theorem dropWhile_pre (p : Nat → Bool) (pre s : Bytes) (hpre : ∀ x ∈ pre, p x = true) :
    (pre ++ s).dropWhile p = s.dropWhile p := by
  induction pre with
  | nil => rfl
  | cons a t ih =>
    have ha : p a = true := hpre a (by simp)
    simp only [List.cons_append, List.dropWhile_cons, ha, if_true]
    exact ih (fun x hx => hpre x (by simp [hx]))

/-- Reading one `ScanWords` token out of: optional whitespace, a nonempty
token, a whitespace delimiter, the rest. -/
theorem nextWord_pre (pre tok : Bytes) (d : Nat) (rest : Bytes)
    (hpre : ∀ x ∈ pre, isWS x = true) (htok : tok ≠ [])
    (htok2 : ∀ x ∈ tok, isWS x = false) (hd : isWS d = true) :
    nextWord (pre ++ (tok ++ d :: rest)) = (tok, d :: rest) := by
  have hdrop : (tok ++ d :: rest).dropWhile isWS = tok ++ d :: rest := by
    apply dropWhile_eq_self_of_head
    intro x hx
    cases tok with
    | nil => exact absurd rfl htok
    | cons a t =>
      simp only [List.cons_append, List.head?_cons, Option.some_inj] at hx
      rw [← hx]
      exact htok2 a (by simp)
  unfold nextWord
  rw [dropWhile_pre _ _ _ hpre, hdrop, Prod.mk.injEq]
  exact ⟨takeWhile_all_append _ _ _ _ (fun x hx => by simp [htok2 x hx]) (by simp [hd]),
    dropWhile_all_append _ _ _ _ (fun x hx => by simp [htok2 x hx]) (by simp [hd])⟩

theorem fieldsFlush_nil (acc : List Bytes) : fieldsFlush ([], acc) = acc := rfl

theorem fieldsFlush_cons (c : Nat) (t : Bytes) (acc : List Bytes) :
    fieldsFlush (c :: t, acc) = (c :: t) :: acc := rfl

theorem fields_ws_cons (c : Nat) (s : Bytes) (hc : isWS c = true) :
    fields (c :: s) = fields s := by
  unfold fields
  rw [List.foldr_cons]
  rw [show fieldsStep c (s.foldr fieldsStep ([], []))
      = ([], fieldsFlush (s.foldr fieldsStep ([], []))) by simp [fieldsStep, hc]]
  rfl

theorem foldr_fieldsStep_token (tok : Bytes) (w : Nat) (rest : Bytes)
    (h1 : ∀ x ∈ tok, isWS x = false) (hw : isWS w = true) :
    List.foldr fieldsStep ([], []) (tok ++ w :: rest) = (tok, fields rest) := by
  induction tok with
  | nil =>
    simp only [List.nil_append, List.foldr_cons]
    simp [fieldsStep, hw, fields]
  | cons a t ih =>
    have ha : isWS a = false := h1 a (by simp)
    simp only [List.cons_append, List.foldr_cons, ih (fun x hx => h1 x (by simp [hx]))]
    simp [fieldsStep, ha]

theorem fields_token (tok : Bytes) (w : Nat) (rest : Bytes)
    (htok : tok ≠ []) (h1 : ∀ x ∈ tok, isWS x = false) (hw : isWS w = true) :
    fields (tok ++ w :: rest) = tok :: fields rest := by
  cases tok with
  | nil => exact absurd rfl htok
  | cons a t =>
    unfold fields
    rw [foldr_fieldsStep_token _ _ _ h1 hw]
    rfl

theorem foldr_splitStep_no_space (a : Bytes) (h : ∀ x ∈ a, x ≠ 32) :
    a.foldr splitStep ([], []) = (a, []) := by
  induction a with
  | nil => rfl
  | cons c t ih =>
    have hc : c ≠ 32 := h c (by simp)
    rw [List.foldr_cons, ih (fun x hx => h x (by simp [hx]))]
    simp [splitStep, hc]

theorem splitOnSpace_no_space (a : Bytes) (h : ∀ x ∈ a, x ≠ 32) :
    splitOnSpace a = [a] := by
  unfold splitOnSpace
  rw [foldr_splitStep_no_space a h]

theorem foldr_splitStep_pair (a : Bytes) (b : Bytes) (h : ∀ x ∈ a, x ≠ 32) :
    (a ++ 32 :: b).foldr splitStep ([], [])
      = (a, (b.foldr splitStep ([], [])).1 :: (b.foldr splitStep ([], [])).2) := by
  induction a with
  | nil => simp [splitStep]
  | cons c t ih =>
    have hc : c ≠ 32 := h c (by simp)
    rw [List.cons_append, List.foldr_cons, ih (fun x hx => h x (by simp [hx]))]
    simp [splitStep, hc]

theorem splitOnSpace_pair (a : Bytes) (b : Bytes) (h : ∀ x ∈ a, x ≠ 32) :
    splitOnSpace (a ++ 32 :: b) = a :: splitOnSpace b := by
  unfold splitOnSpace
  rw [foldr_splitStep_pair a b h]

theorem nextLineT_append (pre rest : Bytes) (h : ∀ c ∈ pre, c ≠ 10) :
    nextLineT (pre ++ 10 :: rest) = (dropTrailCR pre, rest) := by
  unfold nextLineT
  rw [readStringNL_append pre rest h]
  simp [List.dropLast_concat]

theorem dropTrailCR_eq_self (l : Bytes) (h : ∀ c, l.getLast? = some c → c ≠ 13) :
    dropTrailCR l = l := by
  unfold dropTrailCR
  cases hl : l.getLast? with
  | none => simp
  | some c =>
    have := h c hl
    simp [this]

theorem dropTrailCR_concat_32 (l : Bytes) : dropTrailCR (l ++ [32]) = l ++ [32] := by
  apply dropTrailCR_eq_self
  intro c hc
  rw [List.getLast?_concat] at hc
  injection hc with hc
  omega

/-- Largest `int64` (Go `int` on 64-bit platforms). -/
def maxI64 : Int := 2 ^ 63 - 1

/-- Smallest `int64`. -/
def minI64 : Int := -(2 ^ 63)

/-- Digits-and-sign part of `strconv.Atoi` (= `ParseInt(s, 10, 0)` with
64-bit `int`): all remaining bytes must be digits, at least one, and the
signed value must fit in int64; `none` is the returned error (syntax or
range). -/
def atoiCore (neg : Bool) (ds : Bytes) : Option Int :=
  if ds = [] then none
  else if ds.all isDigitB then
    let v : Int := if neg then -(parseDigitsBE ds : Int) else (parseDigitsBE ds : Int)
    if minI64 ≤ v ∧ v ≤ maxI64 then some v else none
  else none

/-- `strconv.Atoi`: optional leading sign, then digits to the end. -/
def atoi (s : Bytes) : Option Int :=
  match s with
  | [] => none
  | c :: t =>
    if c = 45 then atoiCore true t
    else if c = 43 then atoiCore false t
    else atoiCore false (c :: t)

/-- `strconv.Atoi` with the error ignored, as ReadPPM does
(`width, _ = strconv.Atoi(...)`): Go returns 0 on a syntax error and the
clamped extreme on a range error. -/
def atoiLenient (s : Bytes) : Int :=
  match s with
  | [] => 0
  | c :: t =>
    let (neg, ds) : Bool × Bytes :=
      if c = 45 then (true, t) else if c = 43 then (false, t) else (false, c :: t)
    if ds = [] then 0
    else if ds.all isDigitB then
      let v : Int := if neg then -(parseDigitsBE ds : Int) else (parseDigitsBE ds : Int)
      if v < minI64 then minI64 else if maxI64 < v then maxI64 else v
    else 0

/-- `strconv.ParseUint(s, 10, 8)` with the error checked (ReadPGM): no
sign, at least one digit, value at most 255. -/
def parseUint8 (s : Bytes) : Option Nat :=
  if s = [] then none
  else if s.all isDigitB then
    if parseDigitsBE s ≤ 255 then some (parseDigitsBE s) else none
  else none

/-- `strconv.ParseUint(s, 10, 8)` with the error ignored and the value
used anyway (ReadPPM): 0 on a syntax error, 255 (the clamped maximum) on a
range error. -/
def parseUint8Lenient (s : Bytes) : Nat :=
  if s ≠ [] ∧ s.all isDigitB then min (parseDigitsBE s) 255 else 0

/-- One `%d` of `fmt.Sscanf`: optional sign, then a maximal run of digits
(at least one); the int64 range error is `none`. Returns the value and the
unconsumed rest. -/
def parseIntTokCore (neg : Bool) (s : Bytes) : Option (Int × Bytes) :=
  if s.takeWhile isDigitB = [] then none
  else
    let v : Int :=
      if neg then -(parseDigitsBE (s.takeWhile isDigitB) : Int)
      else (parseDigitsBE (s.takeWhile isDigitB) : Int)
    if minI64 ≤ v ∧ v ≤ maxI64 then some (v, s.dropWhile isDigitB) else none

/-- One `%d` of `fmt.Sscanf` including the sign. -/
def parseIntTok (s : Bytes) : Option (Int × Bytes) :=
  match s with
  | [] => none
  | c :: t =>
    if c = 45 then parseIntTokCore true t
    else if c = 43 then parseIntTokCore false t
    else parseIntTokCore false (c :: t)

/-- `fmt.Sscanf(s, "%d %d", &a, &b)` as ReadPBM uses it: each `%d` skips
leading whitespace; trailing input is ignored; `none` is a non-nil
error (a verb that could not be matched). -/
def sscanf2 (s : Bytes) : Option (Int × Int) :=
  (parseIntTok (s.dropWhile isWS)).bind fun p =>
    (parseIntTok (p.2.dropWhile isWS)).bind fun q => some (p.1, q.1)

theorem printNat_all_digits (n : Nat) : (printNat n).all isDigitB = true := by
  rw [List.all_eq_true]
  intro c hc
  exact printNat_isDigit c hc

theorem printNat_head_not_sign (n : Nat) :
    ∀ c t, printNat n = c :: t → c ≠ 45 ∧ c ≠ 43 := by
  intro c t h
  have := printNat_digits n c (by rw [h]; simp)
  omega

theorem parseDigitsBE_printNat_int (n : Nat) : (parseDigitsBE (printNat n) : Int) = n := by
  rw [parseDigitsBE_printNat]

theorem atoi_printNat (n : Nat) (hn : (n : Int) ≤ maxI64) : atoi (printNat n) = some (n : Int) := by
  rcases hp : printNat n with _ | ⟨c, t⟩
  · exact absurd hp (printNat_ne_nil n)
  · have hsign := printNat_head_not_sign n c t hp
    simp only [atoi]
    rw [if_neg hsign.1, if_neg hsign.2, ← hp]
    unfold atoiCore
    rw [if_neg (printNat_ne_nil n), if_pos (printNat_all_digits n)]
    simp only [Bool.false_eq_true, if_false, parseDigitsBE_printNat_int]
    rw [if_pos ⟨by unfold minI64; omega, hn⟩]

theorem atoiLenient_printNat (n : Nat) (hn : (n : Int) ≤ maxI64) :
    atoiLenient (printNat n) = n := by
  rcases hp : printNat n with _ | ⟨c, t⟩
  · exact absurd hp (printNat_ne_nil n)
  · have hsign := printNat_head_not_sign n c t hp
    simp only [atoiLenient]
    rw [if_neg hsign.1, if_neg hsign.2]
    simp only
    rw [← hp, if_neg (printNat_ne_nil n), if_pos (printNat_all_digits n)]
    simp only [Bool.false_eq_true, if_false, parseDigitsBE_printNat_int]
    rw [if_neg (by unfold minI64; omega), if_neg (by omega)]

theorem parseUint8_printNat (n : Nat) (hn : n ≤ 255) : parseUint8 (printNat n) = some n := by
  unfold parseUint8
  rw [if_neg (printNat_ne_nil n), if_pos (printNat_all_digits n), parseDigitsBE_printNat,
    if_pos hn]

theorem parseUint8Lenient_printNat (n : Nat) (hn : n ≤ 255) :
    parseUint8Lenient (printNat n) = n := by
  unfold parseUint8Lenient
  rw [if_pos ⟨printNat_ne_nil n, printNat_all_digits n⟩, parseDigitsBE_printNat]
  omega

theorem takeWhile_digits_print (n : Nat) (c : Nat) (r : Bytes) (hc : isDigitB c = false) :
    (printNat n ++ c :: r).takeWhile isDigitB = printNat n ∧
    (printNat n ++ c :: r).dropWhile isDigitB = c :: r :=
  ⟨takeWhile_all_append _ _ _ _ (fun x hx => printNat_isDigit x hx) hc,
   dropWhile_all_append _ _ _ _ (fun x hx => printNat_isDigit x hx) hc⟩

theorem parseIntTok_print (n : Nat) (c : Nat) (r : Bytes) (hc : isDigitB c = false)
    (hn : (n : Int) ≤ maxI64) :
    parseIntTok (printNat n ++ c :: r) = some ((n : Int), c :: r) := by
  rcases hp : printNat n with _ | ⟨d, t⟩
  · exact absurd hp (printNat_ne_nil n)
  · have hsign := printNat_head_not_sign n d t hp
    rw [List.cons_append]
    simp only [parseIntTok]
    rw [if_neg hsign.1, if_neg hsign.2, ← List.cons_append, ← hp]
    unfold parseIntTokCore
    have htw := (takeWhile_digits_print n c r hc).1
    have hdw := (takeWhile_digits_print n c r hc).2
    rw [htw, hdw, if_neg (printNat_ne_nil n)]
    simp only [Bool.false_eq_true, if_false, parseDigitsBE_printNat_int]
    rw [if_pos ⟨by unfold minI64; omega, hn⟩]

theorem parseIntTok_print_end (n : Nat) (hn : (n : Int) ≤ maxI64) :
    parseIntTok (printNat n) = some ((n : Int), []) := by
  rcases hp : printNat n with _ | ⟨d, t⟩
  · exact absurd hp (printNat_ne_nil n)
  · have hsign := printNat_head_not_sign n d t hp
    simp only [parseIntTok]
    rw [if_neg hsign.1, if_neg hsign.2, ← hp]
    unfold parseIntTokCore
    have htw : (printNat n).takeWhile isDigitB = printNat n :=
      List.takeWhile_eq_self_iff.mpr (fun x hx => printNat_isDigit x hx)
    have hdw : (printNat n).dropWhile isDigitB = [] :=
      List.dropWhile_eq_nil_iff.mpr (fun x hx => printNat_isDigit x hx)
    rw [htw, hdw, if_neg (printNat_ne_nil n)]
    simp only [Bool.false_eq_true, if_false, parseDigitsBE_printNat_int]
    rw [if_pos ⟨by unfold minI64; omega, hn⟩]

theorem sscanf2_print (w h : Nat) (hw : (w : Int) ≤ maxI64) (hh : (h : Int) ≤ maxI64) :
    sscanf2 (printNat w ++ 32 :: printNat h) = some ((w : Int), (h : Int)) := by
  unfold sscanf2
  have h1 : (printNat w ++ 32 :: printNat h).dropWhile isWS = printNat w ++ 32 :: printNat h := by
    apply dropWhile_eq_self_of_head
    intro x hx
    rcases hp : printNat w with _ | ⟨d, t⟩
    · exact absurd hp (printNat_ne_nil w)
    · rw [hp] at hx
      simp only [List.cons_append, List.head?_cons, Option.some_inj] at hx
      rw [← hx]
      exact printNat_not_ws d (by rw [hp]; simp)
  have h2 : (32 :: printNat h : Bytes).dropWhile isWS = printNat h := by
    rw [List.dropWhile_cons]
    simp only [show isWS 32 = true by rfl, if_true]
    apply dropWhile_eq_self_of_head
    intro x hx
    rcases hp : printNat h with _ | ⟨d, t⟩
    · exact absurd hp (printNat_ne_nil h)
    · rw [hp] at hx
      simp only [List.head?_cons, Option.some_inj] at hx
      rw [← hx]
      exact printNat_not_ws d (by rw [hp]; simp)
  rw [h1, parseIntTok_print w 32 (printNat h) (by rfl) hw]
  simp only [Option.some_bind]
  rw [h2, parseIntTok_print_end h hh]
  rfl

/-- Round a rational to the nearest integer, ties to even. -/
def rndNE (x : Rat) : Int :=
  if x - ⌊x⌋ < 1 / 2 then ⌊x⌋
  else if 1 / 2 < x - ⌊x⌋ then ⌊x⌋ + 1
  else if ⌊x⌋ % 2 = 0 then ⌊x⌋ else ⌊x⌋ + 1

/-- `⌊log₂ q⌋` for positive rationals, fuel-driven so the kernel can
evaluate it (each step halves or doubles `q`). -/
def qlog2 : Nat → Rat → Int
  | 0, _ => 0
  | f + 1, q =>
    if 2 ≤ q then qlog2 f (q / 2) + 1
    else if q < 1 then qlog2 f (2 * q) - 1
    else 0

/-- Fuel covering every magnitude that can arise from exact sums, products
and quotients of binary64 values (exponents within ±2200). -/
def flFuel : Nat := 4400

/-- Round a positive rational to the nearest binary64 value
(round-to-nearest, ties-to-even); the values handled in this development
stay in the normal range, so no overflow or subnormal cases arise. -/
def flPos (q : Rat) : Rat :=
  ((rndNE (q * 2 ^ ((52 : Int) - qlog2 flFuel q)) : Rat)) * 2 ^ (qlog2 flFuel q - (52 : Int))

/-- IEEE-754 binary64 rounding of an exact rational. -/
def fl (q : Rat) : Rat := if q = 0 then 0 else if q < 0 then -flPos (-q) else flPos q

/-- Go float64 addition: exact sum, then rounding. -/
def flAdd (a b : Rat) : Rat := fl (a + b)

/-- Go float64 multiplication: exact product, then rounding. -/
def flMul (a b : Rat) : Rat := fl (a * b)

/-- Go float64 division: exact quotient, then rounding. `0.0/0.0` is NaN
in Go; in DrawLine that case arises only when `steps = 0`, where the
increments are added to `x`,`y` only after the single write, so the junk
value returned here is never observed. -/
def flDiv (a b : Rat) : Rat := if b = 0 then 0 else fl (a / b)

/-- The double written `0.299` in ppm.go. -/
def c299 : Rat := fl (299 / 1000)

/-- The double written `0.587` in ppm.go. -/
def c587 : Rat := fl (587 / 1000)

/-- The double written `0.114` in ppm.go. -/
def c114 : Rat := fl (114 / 1000)

/-- Go `int(f)` for a float64: truncation toward zero. -/
def truncQ (q : Rat) : Int :=
  if q < 0 then -((((-q).num.toNat / (-q).den : Nat) : Int))
  else (((q.num.toNat / q.den : Nat) : Int))

theorem rndNE_intCast (k : Int) : rndNE (k : Rat) = k := by
  unfold rndNE
  rw [Int.floor_intCast]
  norm_num

/-- Correctness of `qlog2` on `[1, 2^(fuel+1))`. -/
theorem qlog2_spec_ge1 : ∀ (f : Nat) (q : Rat), 1 ≤ q → q < 2 ^ (f + 1) →
    (2 : Rat) ^ qlog2 f q ≤ q ∧ q < 2 ^ (qlog2 f q + 1) := by
  intro f
  induction f with
  | zero =>
    intro q h1 h2
    have hq2 : ¬(2 ≤ q) := by
      intro h
      have : (2 : Rat) ^ (0 + 1) = 2 := by norm_num
      rw [this] at h2
      linarith
    have hq1 : ¬(q < 1) := by linarith
    simp only [qlog2, hq2, if_false, hq1]
    constructor
    · simpa using h1
    · have : (2 : Rat) ^ ((0 : Int) + 1) = 2 := by norm_num
      rw [this]
      have h2' : (2 : Rat) ^ (0 + 1) = 2 := by norm_num
      rw [h2'] at h2
      exact h2
  | succ f ih =>
    intro q h1 h2
    by_cases hq2 : 2 ≤ q
    · have hrec := ih (q / 2) (by linarith) (by
        have : q < 2 ^ (f + 1 + 1) := h2
        have h2pow : (2 : Rat) ^ (f + 1 + 1) = 2 ^ (f + 1) * 2 := by ring
        rw [h2pow] at this
        linarith)
      simp only [qlog2, hq2, if_true]
      constructor
      · have := hrec.1
        rw [zpow_add₀ (by norm_num : (2 : Rat) ≠ 0)]
        simp only [zpow_one]
        linarith
      · have := hrec.2
        rw [show qlog2 f (q / 2) + 1 + 1 = (qlog2 f (q / 2) + 1) + 1 by ring,
          zpow_add₀ (by norm_num : (2 : Rat) ≠ 0) (qlog2 f (q / 2) + 1) 1]
        simp only [zpow_one]
        linarith
    · have hq1 : ¬(q < 1) := by linarith
      simp only [qlog2, hq2, if_false, hq1]
      constructor
      · simpa using h1
      · have : (2 : Rat) ^ ((0 : Int) + 1) = 2 := by norm_num
        rw [this]
        linarith

/-- Correctness of `qlog2` on `(2^(-fuel), 1)`. -/
theorem qlog2_spec_lt1 : ∀ (f : Nat) (q : Rat), 0 < q → q < 1 → 1 < 2 ^ f * q →
    (2 : Rat) ^ qlog2 f q ≤ q ∧ q < 2 ^ (qlog2 f q + 1) := by
  intro f
  induction f with
  | zero =>
    intro q h0 h1 hf
    simp only [pow_zero, one_mul] at hf
    linarith
  | succ f ih =>
    intro q h0 h1 hf
    have hq2 : ¬(2 ≤ q) := by linarith
    simp only [qlog2, hq2, if_false, h1, if_true]
    by_cases hhalf : 2 * q < 1
    · have hpre : 1 < 2 ^ f * (2 * q) := by
        have hr : (2 : Rat) ^ f * (2 * q) = 2 ^ (f + 1) * q := by ring
        rw [hr]
        exact hf
      have hrec := ih (2 * q) (by linarith) hhalf hpre
      constructor
      · have := hrec.1
        rw [zpow_sub₀ (by norm_num : (2 : Rat) ≠ 0)]
        simp only [zpow_one]
        linarith
      · have := hrec.2
        rw [show qlog2 f (2 * q) - 1 + 1 = qlog2 f (2 * q) by ring]
        have h2e : (2 : Rat) ^ (qlog2 f (2 * q) + 1) = 2 ^ qlog2 f (2 * q) * 2 := by
          rw [zpow_add₀ (by norm_num : (2 : Rat) ≠ 0)]
          norm_num
        rw [h2e] at this
        linarith
    · have hge : 1 ≤ 2 * q := by linarith
      have hlt : 2 * q < 2 ^ (f + 1) := by
        have h1f : (1 : Rat) ≤ 2 ^ f := one_le_pow₀ (by norm_num)
        have h2f : (2 : Rat) ≤ 2 ^ (f + 1) := by
          have : (2 : Rat) ^ (f + 1) = 2 ^ f * 2 := by ring
          rw [this]
          linarith
        linarith
      have hrec := qlog2_spec_ge1 f (2 * q) hge hlt
      constructor
      · have := hrec.1
        rw [zpow_sub₀ (by norm_num : (2 : Rat) ≠ 0)]
        simp only [zpow_one]
        linarith
      · have := hrec.2
        rw [show qlog2 f (2 * q) - 1 + 1 = qlog2 f (2 * q) by ring]
        have h2e : (2 : Rat) ^ (qlog2 f (2 * q) + 1) = 2 ^ qlog2 f (2 * q) * 2 := by
          rw [zpow_add₀ (by norm_num : (2 : Rat) ≠ 0)]
          norm_num
        rw [h2e] at this
        linarith

theorem flPos_natCast (n : Nat) (h1 : 1 ≤ n) (h2 : n < 2 ^ 53) : flPos (n : Rat) = n := by
  have hq1 : (1 : Rat) ≤ (n : Rat) := by exact_mod_cast h1
  have h53 : (n : Rat) < 2 ^ 53 := by exact_mod_cast h2
  have hq2 : (n : Rat) < 2 ^ (flFuel + 1) := by
    have hle : (2 : Rat) ^ 53 ≤ 2 ^ (flFuel + 1) :=
      pow_le_pow_right₀ (by norm_num) (by norm_num [flFuel])
    linarith
  have hspec := qlog2_spec_ge1 flFuel (n : Rat) hq1 hq2
  set e := qlog2 flFuel (n : Rat) with he
  have he0 : 0 ≤ e := by
    by_contra hcon
    push_neg at hcon
    have h1' : e + 1 ≤ 0 := by omega
    have hz : (2 : Rat) ^ (e + 1) ≤ 2 ^ (0 : Int) :=
      zpow_le_zpow_right₀ (by norm_num) h1'
    rw [zpow_zero] at hz
    linarith [hspec.2]
  have he52 : e ≤ 52 := by
    by_contra hcon
    push_neg at hcon
    have h1' : (53 : Int) ≤ e := by omega
    have hz : (2 : Rat) ^ (53 : Int) ≤ 2 ^ e :=
      zpow_le_zpow_right₀ (by norm_num) h1'
    have h53' : (2 : Rat) ^ (53 : Int) = 2 ^ (53 : Nat) := by
      norm_num
    rw [h53'] at hz
    linarith [hspec.1]
  unfold flPos
  rw [← he]
  have ht : ((52 : Int) - e) = (((52 - e).toNat : Nat) : Int) := by omega
  have ht2 : e - (52 : Int) = -(((52 - e).toNat : Nat) : Int) := by omega
  rw [ht, ht2, zpow_natCast, zpow_neg, zpow_natCast]
  have hcast : (n : Rat) * 2 ^ ((52 - e).toNat : Nat)
      = (((n * 2 ^ ((52 - e).toNat : Nat) : Nat) : Int) : Rat) := by
    push_cast
    ring
  rw [hcast, rndNE_intCast]
  rw [← hcast]
  have h2ne : ((2 : Rat) ^ ((52 - e).toNat : Nat)) ≠ 0 := by positivity
  field_simp

theorem fl_intCast (k : Int) (hk : k.natAbs < 2 ^ 53) : fl (k : Rat) = k := by
  rcases lt_trichotomy k 0 with h | h | h
  · have hneg : (k : Rat) < 0 := by exact_mod_cast h
    have hne : (k : Rat) ≠ 0 := by linarith
    unfold fl
    rw [if_neg hne, if_pos hneg]
    have habs : (-(k : Rat)) = ((k.natAbs : Nat) : Rat) := by
      have h1 : ((k.natAbs : Nat) : Int) = -k := by omega
      calc (-(k : Rat)) = ((-k : Int) : Rat) := by push_cast; ring
      _ = (((k.natAbs : Nat) : Int) : Rat) := by rw [h1]
      _ = ((k.natAbs : Nat) : Rat) := by rw [Int.cast_natCast]
    rw [habs, flPos_natCast k.natAbs (by omega) hk]
    rw [← habs]
    ring
  · subst h
    simp [fl]
  · have hpos : (0 : Rat) < (k : Rat) := by exact_mod_cast h
    have hne : (k : Rat) ≠ 0 := by linarith
    unfold fl
    rw [if_neg hne, if_neg (by linarith)]
    have habs : ((k : Rat)) = ((k.toNat : Nat) : Rat) := by
      have : ((k.toNat : Nat) : Int) = k := by omega
      exact_mod_cast this.symm
    rw [habs, flPos_natCast k.toNat (by omega) (by omega)]

theorem fl_natCast (n : Nat) (hn : n < 2 ^ 53) : fl (n : Rat) = n := by
  have := fl_intCast (n : Int) (by simpa using hn)
  rw [show (((n : Int) : Rat)) = (n : Rat) by push_cast; ring] at this
  exact this

theorem truncQ_intCast (k : Int) : truncQ (k : Rat) = k := by
  unfold truncQ
  by_cases h : (k : Rat) < 0
  · rw [if_pos h]
    have hk : k < 0 := by exact_mod_cast h
    have hneg : (-(k : Rat)) = ((-k : Int) : Rat) := by push_cast; ring
    rw [hneg, Rat.num_intCast, Rat.den_intCast]
    simp only [Nat.div_one]
    omega
  · rw [if_neg h]
    have hk : 0 ≤ k := by
      by_contra hcon
      push_neg at hcon
      exact h (by exact_mod_cast hcon)
    rw [Rat.num_intCast, Rat.den_intCast]
    simp only [Nat.div_one]
    omega

theorem truncQ_natCast (n : Nat) : truncQ (n : Rat) = n := by
  have := truncQ_intCast (n : Int)
  rw [show (((n : Int) : Rat)) = (n : Rat) by push_cast; ring] at this
  exact this

attribute [local semireducible] Rat.add Rat.mul Rat.inv Rat.sub

set_option maxRecDepth 40000

/-- Decode outcome: a returned image, a returned non-nil `error`, or a Go
runtime panic (out-of-range slice index / `make` with a negative size). -/
inductive DRes (α : Type) where
  | ok (val : α)
  | err
  | panic
deriving DecidableEq

/-- `Pixel` of ppm.go: `R`, `G`, `B` are `uint8` (every value the code
constructs is `< 256`; the theorems carry that invariant explicitly). -/
structure Pixel where
  R : Nat
  G : Nat
  B : Nat
deriving DecidableEq

/-- `Point` of ppm.go. -/
structure Point where
  X : Int
  Y : Int
deriving DecidableEq

/-- `PBM` of pbm.go. `width`/`height` are Go `int`s; they are modelled as
`ℕ` because every PBM the code ever constructs has nonnegative dimensions
(a parsed negative height/width panics inside `make` before any PBM value
exists; `ReadPBM`'s model returns `.panic` there). -/
structure PBM where
  data : List (List Bool)
  width : Nat
  height : Nat
  magicNumber : Bytes
deriving DecidableEq

/-- `PGM` of ppm.go (second file section): `max` is a Go `uint` (64-bit). -/
structure PGM where
  data : List (List Nat)
  width : Nat
  height : Nat
  magicNumber : Bytes
  max : Nat
deriving DecidableEq

/-- `PPM` of ppm.go: `max` is a `uint8`. -/
structure PPM where
  data : List (List Pixel)
  width : Nat
  height : Nat
  magicNumber : Bytes
  max : Nat
deriving DecidableEq

/-- Structural validity of a bitmap grid (spec §3): positive dimensions and
`height` rows of length `width`. -/
def PBM.valid (p : PBM) : Prop :=
  0 < p.width ∧ 0 < p.height ∧ p.data.length = p.height ∧ ∀ r ∈ p.data, r.length = p.width

/-- Structural validity of a graymap: dimensions as for PBM plus `uint8`
samples. -/
def PGM.valid (g : PGM) : Prop :=
  0 < g.width ∧ 0 < g.height ∧ g.data.length = g.height ∧
    (∀ r ∈ g.data, r.length = g.width) ∧ ∀ r ∈ g.data, ∀ v ∈ r, v < 256

/-- Structural validity of a pixmap: dimensions as for PBM plus `uint8`
channels and max value. -/
def PPM.valid (p : PPM) : Prop :=
  0 < p.width ∧ 0 < p.height ∧ p.data.length = p.height ∧
    (∀ r ∈ p.data, r.length = p.width) ∧ p.max < 256 ∧
    ∀ r ∈ p.data, ∀ px ∈ r, px.R < 256 ∧ px.G < 256 ∧ px.B < 256

/-- Propagate a returned `error` out of an `Option`-valued step. -/
def orErr : Option α → (α → DRes β) → DRes β
  | none, _ => .err
  | some a, f => f a

/-- Sequencing of decode steps: `.err` and `.panic` abort. -/
def DRes.bind : DRes α → (α → DRes β) → DRes β
  | .ok a, f => f a
  | .err, _ => .err
  | .panic, _ => .panic

/-- Mapping over a decode result. -/
def DRes.map (f : α → β) : DRes α → DRes β
  | .ok a => .ok (f a)
  | .err => .err
  | .panic => .panic

/-- One ASCII P1 row: `data[y]` starts all-false and `data[y][x] = (field
== "1")` for each whitespace field of the line; a field index `≥ width` is
the "index out of range" error return in ReadPBM. -/
def readP1Row (w : Nat) (fs : List Bytes) : Option (List Bool) :=
  if w < fs.length then none
  else some (fs.map (fun f => decide (f = str "1")) ++ List.replicate (w - fs.length) false)

/-- The ASCII P1 row loop of ReadPBM (one `ReadString('\n')` per row). -/
def readP1Rows (w : Nat) : Nat → Bytes → DRes (List (List Bool))
  | 0, _ => .ok []
  | h + 1, s =>
    orErr (readStringNL s) fun ls =>
      orErr (readP1Row w (fields ls.1)) fun row =>
        (readP1Rows w h ls.2).map (fun rows => row :: rows)

/-- Decode one packed P4 row: pixel `x` is bit `7 - (x % 8)` of byte
`x / 8` (`(decimalValue >> bitIndex) & 1`). -/
def unpackRow (w : Nat) (bytes : Bytes) : List Bool :=
  (List.range w).map (fun x => decide ((bytes.getD (x / 8) 0) / 2 ^ (7 - x % 8) % 2 = 1))

/-- The binary P4 row loop of ReadPBM. `bufio.Read` into the
`expectedBytesPerRow`-long row slice is modelled as delivering
`min(bpr, remaining)` bytes and `io.EOF` when none remain (the buffered
reader's refill mechanics are I/O plumbing outside the model); both the
EOF case and a short count are error returns in the Go code. -/
def readP4Rows (bpr w : Nat) : Nat → Bytes → DRes (List (List Bool))
  | 0, _ => .ok []
  | h + 1, s =>
    if bpr ≠ 0 ∧ s.length = 0 then .err
    else if s.length < bpr then .err
    else (readP4Rows bpr w h (s.drop bpr)).map (fun rows => unpackRow w (s.take bpr) :: rows)

/-- `ReadPBM` (pbm.go), applied to the opened file's contents. -/
def ReadPBM (s : Bytes) : DRes PBM :=
  orErr (readStringNL s) fun ms =>
    if trimSpace ms.1 ≠ str "P1" ∧ trimSpace ms.1 ≠ str "P4" then .err
    else
      orErr (readStringNL ms.2) fun ds =>
        orErr (sscanf2 (trimSpace ds.1)) fun wh =>
          if wh.2 < 0 ∨ (0 < wh.2 ∧ wh.1 < 0) then .panic
          else if trimSpace ms.1 = str "P1" then
            (readP1Rows wh.1.toNat wh.2.toNat ds.2).map
              (fun rows => ⟨rows, wh.1.toNat, wh.2.toNat, trimSpace ms.1⟩)
          else
            (readP4Rows ((wh.1.toNat + 7) / 8) wh.1.toNat wh.2.toNat ds.2).map
              (fun rows => ⟨rows, wh.1.toNat, wh.2.toNat, trimSpace ms.1⟩)

/-- Big-endian value of up to 8 row bits. -/
def beVal : List Bool → Nat
  | [] => 0
  | b :: t => (if b then 2 ^ t.length else 0) + beVal t

/-- The byte `Save` emits for one chunk of ≤ 8 pixels: pixel `i` of the
chunk has weight `2^(7-i)` (`currentByte |= bitValue << (7 - x%8)`), and
the padding bits of a final partial chunk stay 0. -/
def byteOfBits (bits : List Bool) : Nat := beVal bits * 2 ^ (8 - bits.length)

/-- P4 packing of one row. The Go loop ORs pixel `x` into bit `7 - x%8`
and emits the byte at every 8th pixel and at row end, which is exactly
one byte per 8-pixel chunk. -/
def packRowAux : Nat → List Bool → Bytes
  | 0, _ => []
  | _, [] => []
  | fuel + 1, b :: t => byteOfBits ((b :: t).take 8) :: packRowAux fuel ((b :: t).drop 8)

/-- P4 packing of one row (fuel instantiated). -/
def packRow (row : List Bool) : Bytes := packRowAux row.length row

/-- `PBM.Save` (pbm.go), returning the bytes written to the file. The Go
loops index `data[y][x]` for `y < height`, `x < width`; `getD` makes the
model total (on the valid grids the claims quantify over, every index is
in range, as in Go). A magic number other than P1/P4 writes only the
header, as in the Go if/else-if chain. -/
def PBM.Save (p : PBM) : Bytes :=
  p.magicNumber ++ [10] ++ printNat p.width ++ [32] ++ printNat p.height ++ [10] ++
  (if p.magicNumber = str "P1" then
    (List.range p.height).flatMap (fun y =>
      (List.range p.width).flatMap (fun x =>
        if (p.data.getD y []).getD x false then str "1 " else str "0 ") ++ [10])
  else if p.magicNumber = str "P4" then
    (List.range p.height).flatMap (fun y =>
      packRow ((List.range p.width).map (fun x => (p.data.getD y []).getD x false)))
  else [])

/-- `PBM.Invert` (pbm.go): flips `data[y][x]` for `y < height`,
`x < width`; entries outside those loop ranges are untouched (a height
larger than the row count would panic in Go; the claims only invert valid
grids, where the loops cover exactly the grid). -/
def PBM.Invert (p : PBM) : PBM :=
  { p with
    data := p.data.mapIdx (fun y row =>
      if y < p.height then row.mapIdx (fun x b => if x < p.width then !b else b) else row) }

/-- One PGM sample row: `row[j]` for `j < width` over the line's fields; a
missing token is an out-of-range panic, a bad or too-large token the
returned `ParseUint` error. -/
def readPGMRowVals : Nat → List Bytes → DRes (List Nat)
  | 0, _ => .ok []
  | _ + 1, [] => .panic
  | w + 1, t :: ts =>
    orErr (parseUint8 t) fun v => (readPGMRowVals w ts).map (fun vs => v :: vs)

/-- The PGM row loop: one scanned line per row. -/
def readPGMRows (w : Nat) : Nat → Bytes → DRes (List (List Nat))
  | 0, _ => .ok []
  | h + 1, s =>
    (readPGMRowVals w (fields (nextLineT s).1)).bind fun row =>
      (readPGMRows w h (nextLineT s).2).map (fun rows => row :: rows)

/-- `ReadPGM` (ppm.go), applied to the opened file's contents. The magic
token is stored but never validated. `sizeLine[1]` is only indexed after
the width parse succeeds, so a one-token size line with a bad first token
is an error, with a good one a panic. `max` is stored as `uint`. -/
def ReadPGM (s : Bytes) : DRes PGM :=
  let magic := trimSpace (nextLineT s).1
  let s1 := (nextLineT s).2
  let sizeLine := splitOnSpace (trimSpace (nextLineT s1).1)
  let s2 := (nextLineT s1).2
  orErr (atoi (sizeLine.getD 0 [])) fun w =>
    if sizeLine.length < 2 then .panic
    else
      orErr (atoi (sizeLine.getD 1 [])) fun h =>
        orErr (atoi (trimSpace (nextLineT s2).1)) fun mx =>
          if h < 0 ∨ (0 < h ∧ w < 0) then .panic
          else
            (readPGMRows w.toNat h.toNat (nextLineT s2).2).map
              (fun rows => ⟨rows, w.toNat, h.toNat, magic, (mx % (2 ^ 64)).toNat⟩)

/-- `PGM.Save` (ppm.go): header then one `"%d "` per sample and a newline
per row (no branching on the magic number). -/
def PGM.Save (g : PGM) : Bytes :=
  g.magicNumber ++ [10] ++ printNat g.width ++ [32] ++ printNat g.height ++ [10] ++
  printNat g.max ++ [10] ++
  (List.range g.height).flatMap (fun i =>
    (List.range g.width).flatMap (fun j =>
      printNat ((g.data.getD i []).getD j 0) ++ [32]) ++ [10])

/-- One PPM pixel: three `ScanWords` tokens, each parsed with the error
discarded. -/
def readPixTriple (s : Bytes) : Pixel × Bytes :=
  (⟨parseUint8Lenient (nextWord s).1,
    parseUint8Lenient (nextWord (nextWord s).2).1,
    parseUint8Lenient (nextWord (nextWord (nextWord s).2).2).1⟩,
   (nextWord (nextWord (nextWord s).2).2).2)

/-- One PPM row of `width` pixels. -/
def readPPMRow : Nat → Bytes → List Pixel × Bytes
  | 0, s => ([], s)
  | w + 1, s =>
    ((readPixTriple s).1 :: (readPPMRow w (readPixTriple s).2).1,
     (readPPMRow w (readPixTriple s).2).2)

/-- The PPM pixel loops. -/
def readPPMRows (w : Nat) : Nat → Bytes → List (List Pixel) × Bytes
  | 0, s => ([], s)
  | h + 1, s =>
    ((readPPMRow w s).1 :: (readPPMRows w h (readPPMRow w s).2).1,
     (readPPMRows w h (readPPMRow w s).2).2)

/-- `ReadPPM` (ppm.go), applied to the opened file's contents. Every
parse error is discarded (`_ =`), so no `.err` outcome exists: missing or
malformed tokens yield zeroed fields instead. `max` is stored through
`uint8(...)`, i.e. mod 256. -/
def ReadPPM (s : Bytes) : DRes PPM :=
  let magic := (nextWord s).1
  let s1 := (nextWord s).2
  let w := atoiLenient (nextWord s1).1
  let s2 := (nextWord s1).2
  let h := atoiLenient (nextWord s2).1
  let s3 := (nextWord s2).2
  let mx := atoiLenient (nextWord s3).1
  let s4 := (nextWord s3).2
  if h < 0 ∨ (0 < h ∧ w < 0) then .panic
  else .ok ⟨(readPPMRows w.toNat h.toNat s4).1, w.toNat, h.toNat, magic, (mx % 256).toNat⟩

/-- `PPM.Save` (ppm.go): header (one Fprintf), then `"%d %d %d "` per
pixel and a newline per row. -/
def PPM.Save (p : PPM) : Bytes :=
  p.magicNumber ++ [10] ++ printNat p.width ++ [32] ++ printNat p.height ++ [10] ++
  printNat p.max ++ [10] ++
  (List.range p.height).flatMap (fun i =>
    (List.range p.width).flatMap (fun j =>
      printNat ((p.data.getD i []).getD j ⟨0, 0, 0⟩).R ++ [32] ++
      printNat ((p.data.getD i []).getD j ⟨0, 0, 0⟩).G ++ [32] ++
      printNat ((p.data.getD i []).getD j ⟨0, 0, 0⟩).B ++ [32]) ++ [10])

/-- The comprehension computed by both `Rotate90CW` loops. ppm.go writes
`newData[j][height-1-i] = data[i][j]` (`i < height`, `j < width`); the PGM
version writes `rotated[i][j] = data[height-j-1][i]` (`i < width`,
`j < height`). Re-indexing destination row `r`, column `c`, both assign
every destination cell exactly once with `dest[r][c] = data[h-1-c][r]`. -/
def rotData (d : List (List α)) (w h : Nat) (dflt : α) : List (List α) :=
  (List.range w).map (fun r => (List.range h).map (fun c => (d.getD (h - 1 - c) []).getD r dflt))

/-- `PPM.Rotate90CW` (ppm.go): new data, then swapped dimensions. -/
def PPM.Rotate90CW (p : PPM) : PPM :=
  { p with
    data := rotData p.data p.width p.height ⟨0, 0, 0⟩,
    width := p.height, height := p.width }

/-- `PGM.Rotate90CW` (ppm.go). -/
def PGM.Rotate90CW (g : PGM) : PGM :=
  { g with
    data := rotData g.data g.width g.height 0,
    width := g.height, height := g.width }

/-- The float64 luminance `0.299*R + 0.587*G + 0.114*B` exactly as ppm.go
evaluates it: left-associated, every product and sum rounded to binary64
(`float64(uint8)` is exact, so the channel casts need no rounding). -/
def lumF (px : Pixel) : Rat :=
  flAdd (flAdd (flMul c299 (px.R : Rat)) (flMul c587 (px.G : Rat))) (flMul c114 (px.B : Rat))

/-- `PPM.ToPGM` (ppm.go): per pixel `uint8(lum)` — float-to-integer
conversion truncates toward zero; for `uint8` channels the luminance is
nonnegative and (after truncation) within `uint8` range, so `toNat` is
the conversion. Dimensions and `max` copied, magic "P2". -/
def PPM.ToPGM (p : PPM) : PGM :=
  { data := (List.range p.height).map (fun i => (List.range p.width).map (fun j =>
      (truncQ (lumF ((p.data.getD i []).getD j ⟨0, 0, 0⟩))).toNat)),
    width := p.width, height := p.height, magicNumber := str "P2", max := p.max }

/-- `PPM.ToPBM` (ppm.go): per pixel `grayValue > 128` on the float64
luminance; magic "P1"; the source `max` is not consulted. -/
def PPM.ToPBM (p : PPM) : PBM :=
  { data := (List.range p.height).map (fun i => (List.range p.width).map (fun j =>
      decide ((128 : Rat) < lumF ((p.data.getD i []).getD j ⟨0, 0, 0⟩)))),
    width := p.width, height := p.height, magicNumber := str "P1" }

/-- `PGM.ToPBM` (ppm.go): per sample
`uint16(pgm.data[i][j]) > uint16(pgm.max)/2`; the sample is a `uint8`, so
its `uint16` conversion is the identity, while `uint16(pgm.max)` truncates
the 64-bit `uint` to `max % 2^16`. Magic "P4". -/
def PGM.ToPBM (g : PGM) : PBM :=
  { data := (List.range g.height).map (fun i => (List.range g.width).map (fun j =>
      decide ((g.max % 2 ^ 16) / 2 < (g.data.getD i []).getD j 0))),
    width := g.width, height := g.height, magicNumber := str "P4" }

/-- `PPM.Set` (ppm.go): `ppm.data[y][x] = value` with no bounds check —
an out-of-range index is a runtime panic, modelled as `none`. The bounds
come from the actual slice lengths, as in Go. -/
def PPM.Set (p : PPM) (x y : Int) (c : Pixel) : Option PPM :=
  if 0 ≤ y ∧ y.toNat < p.data.length then
    if 0 ≤ x ∧ x.toNat < (p.data.getD y.toNat []).length then
      some { p with data := p.data.set y.toNat ((p.data.getD y.toNat []).set x.toNat c) }
    else none
  else none

/-- `PPM.At`, made total with a zero default so theorems can state pixel
values (the Go method panics out of range; claims only query in-range
pixels of valid grids). -/
def PPM.At (p : PPM) (x y : Int) : Pixel :=
  if 0 ≤ x ∧ 0 ≤ y then (p.data.getD y.toNat []).getD x.toNat ⟨0, 0, 0⟩ else ⟨0, 0, 0⟩

/-- `PBM.At`, total with default `false`. -/
def PBM.At (p : PBM) (x y : Nat) : Bool := (p.data.getD y []).getD x false

/-- `PGM.At`, total with default `0`. -/
def PGM.At (g : PGM) (x y : Nat) : Nat := (g.data.getD y []).getD x 0

/-- The `for i := 0; i <= steps; i++` loop of DrawLine: one `Set` at the
truncated coordinates, then float64 increments. -/
def drawLineLoop (c : Pixel) (xi yi : Rat) : Nat → Rat → Rat → PPM → Option PPM
  | 0, _, _, g => some g
  | n + 1, x, y, g =>
    match g.Set (truncQ x) (truncQ y) c with
    | none => none
    | some g1 => drawLineLoop c xi yi n (flAdd x xi) (flAdd y yi) g1

/-- `PPM.DrawLine` (ppm.go). `steps` is
`int(math.Max(math.Abs(float64(dX)), math.Abs(float64(dY))))`: for
`|dX|, |dY| < 2^53` (always true for Go slice-indexable images; the
theorems carry the bound) the float64 round trip is exact, so it is
`max |dX| |dY|`. The increments divide through `fl`; when `steps = 0`
they are NaN (`0.0/0.0`) in Go, but the loop then runs once and adds the
increments only after its single `Set`, so the junk value `flDiv` returns
for a zero denominator is never observed. `float64(int)` is modelled by
`fl`. -/
def PPM.DrawLine (p : PPM) (p1 p2 : Point) (c : Pixel) : Option PPM :=
  drawLineLoop c
    (flDiv (fl ((p2.X - p1.X : Int) : Rat))
      (fl ((Nat.max (p2.X - p1.X).natAbs (p2.Y - p1.Y).natAbs : Nat) : Rat)))
    (flDiv (fl ((p2.Y - p1.Y : Int) : Rat))
      (fl ((Nat.max (p2.X - p1.X).natAbs (p2.Y - p1.Y).natAbs : Nat) : Rat)))
    (Nat.max (p2.X - p1.X).natAbs (p2.Y - p1.Y).natAbs + 1)
    (fl (p1.X : Rat)) (fl (p1.Y : Rat)) p

/-- `for x := a; x <= b; x++` as a list of `Int`s. -/
def intRange (a b : Int) : List Int :=
  (List.range (b - a + 1).toNat).map (fun k : Nat => a + (k : Int))

/-- The pixels DrawCircle visits, in loop order: offsets `(x, y)` with
`-radius ≤ x, y ≤ radius` and `x² + y² ≤ radius²`, translated by the
center. -/
def circlePoints (center : Point) (radius : Int) : List (Int × Int) :=
  (intRange (-radius) radius).flatMap (fun x =>
    (intRange (-radius) radius).filterMap (fun y =>
      if x * x + y * y ≤ radius * radius then some (center.X + x, center.Y + y) else none))

/-- Sequential unchecked `Set` calls; the first out-of-bounds write
panics (`none`). -/
def drawPoints (c : Pixel) : List (Int × Int) → PPM → Option PPM
  | [], g => some g
  | pt :: pts, g =>
    match g.Set pt.1 pt.2 c with
    | none => none
    | some g1 => drawPoints c pts g1

/-- `PPM.DrawCircle` (ppm.go). -/
def PPM.DrawCircle (p : PPM) (center : Point) (radius : Int) (c : Pixel) : Option PPM :=
  drawPoints c (circlePoints center radius) p

/-- `PPM.DrawFilledCircle` (ppm.go) — its body is character-for-character
the same double loop as `PPM.DrawCircle`. -/
def PPM.DrawFilledCircle (p : PPM) (center : Point) (radius : Int) (c : Pixel) : Option PPM :=
  drawPoints c (circlePoints center radius) p

theorem range_map_getD (l : List α) (d : α) :
    (List.range l.length).map (fun i => l.getD i d) = l := by
  induction l with
  | nil => rfl
  | cons a t ih =>
    rw [List.length_cons, List.range_succ_eq_map, List.map_cons, List.map_map]
    simp only [List.getD_cons_zero, Function.comp_def, List.getD_cons_succ]
    rw [ih]

theorem range_flatMap_getD (l : List α) (d : α) (F : α → List β) :
    (List.range l.length).flatMap (fun i => F (l.getD i d)) = l.flatMap F := by
  induction l with
  | nil => rfl
  | cons a t ih =>
    rw [List.length_cons, List.range_succ_eq_map, List.flatMap_cons, List.flatMap_map]
    simp only [List.getD_cons_zero, Function.comp_def, List.getD_cons_succ]
    rw [show (List.range t.length).flatMap (fun i => F (t.getD i d)) = t.flatMap F from ih]
    rfl

theorem flatMap_congr_mem (l : List α) (f g : α → List β) (h : ∀ a ∈ l, f a = g a) :
    l.flatMap f = l.flatMap g := by
  induction l with
  | nil => rfl
  | cons a t ih =>
    rw [List.flatMap_cons, List.flatMap_cons, h a (by simp),
      ih (fun x hx => h x (by simp [hx]))]

theorem orErr_some (a : α) (f : α → DRes β) : orErr (some a) f = f a := rfl

theorem DRes_map_ok (f : α → β) (a : α) : DRes.map f (.ok a) = .ok (f a) := rfl

theorem DRes_bind_ok (a : α) (f : α → DRes β) : DRes.bind (.ok a) f = f a := rfl

/-- One pixel of ASCII P1 output ("1 " or "0 "). -/
def bitBytes (b : Bool) : Bytes := if b then str "1 " else str "0 "

theorem bitBytes_chars (b : Bool) : ∀ c ∈ bitBytes b, c = 49 ∨ c = 48 ∨ c = 32 := by
  cases b <;> decide

theorem bitRow_no_nl (row : List Bool) : ∀ c ∈ row.flatMap bitBytes, c ≠ 10 := by
  intro c hc
  rw [List.mem_flatMap] at hc
  obtain ⟨b, _, hb⟩ := hc
  rcases bitBytes_chars b c hb with h | h | h <;> omega

theorem fields_bitRow (row : List Bool) :
    fields (row.flatMap bitBytes ++ [10]) = row.map (fun b => if b then [49] else [48]) := by
  induction row with
  | nil =>
    show fields (10 :: []) = []
    rw [fields_ws_cons 10 [] (by decide)]
    rfl
  | cons b t ih =>
    rw [List.flatMap_cons, List.map_cons]
    have hshape : bitBytes b ++ (t.flatMap bitBytes ++ [10])
        = (if b then ([49] : Bytes) else [48]) ++ 32 :: (t.flatMap bitBytes ++ [10]) := by
      cases b <;> simp [bitBytes, str]
    rw [List.append_assoc, hshape,
      fields_token _ 32 _ (by cases b <;> simp) (by cases b <;> decide) (by decide), ih]

theorem save_p1_structure (p : PBM) (hlen : p.data.length = p.height)
    (hrow : ∀ r ∈ p.data, r.length = p.width) (hm : p.magicNumber = str "P1") :
    p.Save = str "P1" ++ 10 :: (printNat p.width ++ 32 :: (printNat p.height ++ 10 ::
      p.data.flatMap (fun row => row.flatMap bitBytes ++ [10]))) := by
  unfold PBM.Save
  rw [hm, if_pos rfl]
  have hbody : (List.range p.height).flatMap (fun y =>
      (List.range p.width).flatMap (fun x =>
        if (p.data.getD y []).getD x false then str "1 " else str "0 ") ++ [10])
      = p.data.flatMap (fun row => row.flatMap bitBytes ++ [10]) := by
    rw [← hlen,
      range_flatMap_getD p.data ([] : List Bool) (fun row =>
        (List.range p.width).flatMap (fun x =>
          if row.getD x false then str "1 " else str "0 ") ++ [10])]
    apply flatMap_congr_mem
    intro row hr
    rw [← hrow row hr,
      range_flatMap_getD row false (fun b => if b then str "1 " else str "0 ")]
    rfl
  rw [hbody]
  simp

theorem readP1Rows_ok (w : Nat) : ∀ (rows : List (List Bool)) (rest : Bytes),
    (∀ r ∈ rows, r.length = w) →
    readP1Rows w rows.length
      (rows.flatMap (fun row => row.flatMap bitBytes ++ [10]) ++ rest) = .ok rows := by
  intro rows
  induction rows with
  | nil => intro rest _; rfl
  | cons row rows' ih =>
    intro rest h
    rw [List.length_cons, List.flatMap_cons]
    have hassoc : row.flatMap bitBytes ++ [10] ++
          ((rows'.flatMap (fun r => r.flatMap bitBytes ++ [10])) ++ rest)
        = row.flatMap bitBytes ++ 10 ::
          (rows'.flatMap (fun r => r.flatMap bitBytes ++ [10]) ++ rest) := by
      simp
    rw [List.append_assoc, hassoc]
    simp only [readP1Rows]
    rw [readStringNL_append _ _ (bitRow_no_nl row), orErr_some]
    simp only
    rw [show (row.flatMap bitBytes ++ [10] : Bytes)
        = row.flatMap bitBytes ++ [10] from rfl]
    rw [fields_bitRow row]
    unfold readP1Row
    rw [List.length_map, h row (by simp), if_neg (lt_irrefl w)]
    have hmap : (row.map (fun b => if b then ([49] : Bytes) else [48])).map
        (fun f => decide (f = str "1")) = row := by
      rw [List.map_map]
      have hpt : ∀ b : Bool, decide (((if b then ([49] : Bytes) else [48]) : Bytes) = str "1") = b := by
        decide
      calc row.map ((fun f => decide (f = str "1")) ∘ (fun b => if b then ([49] : Bytes) else [48]))
          = row.map id := by
            apply List.map_congr_left
            intro b _
            exact hpt b
      _ = row := List.map_id row
    rw [orErr_some, hmap, Nat.sub_self]
    simp only [List.replicate, List.append_nil]
    rw [ih rest (fun r hr => h r (by simp [hr]))]
    rfl

theorem head_printNat_append_not_ws (n : Nat) (r : Bytes) :
    ∀ c, (printNat n ++ r).head? = some c → isWS c = false := by
  intro c hc
  rcases hp : printNat n with _ | ⟨d, t⟩
  · exact absurd hp (printNat_ne_nil n)
  · rw [hp] at hc
    simp only [List.cons_append, List.head?_cons, Option.some_inj] at hc
    rw [← hc]
    exact printNat_not_ws d (by rw [hp]; simp)

theorem getLast_append_printNat_not_ws (n : Nat) (l : Bytes) :
    ∀ c, (l ++ printNat n).getLast? = some c → isWS c = false := by
  intro c hc
  rw [List.getLast?_append] at hc
  rcases hd : (printNat n).getLast? with _ | d
  · rw [List.getLast?_eq_none_iff] at hd
    exact absurd hd (printNat_ne_nil n)
  · rw [hd, show (some d).or l.getLast? = some d from rfl] at hc
    injection hc with hc
    rw [← hc]
    exact printNat_not_ws d (List.mem_of_getLast?_eq_some hd)

theorem readPBM_save_p1 (p : PBM) (hv : p.valid) (hm : p.magicNumber = str "P1")
    (hw64 : (p.width : Int) ≤ maxI64) (hh64 : (p.height : Int) ≤ maxI64) :
    ReadPBM p.Save = .ok p := by
  obtain ⟨hw, hh, hlen, hrow⟩ := hv
  rw [save_p1_structure p hlen hrow hm]
  have e1 := readStringNL_append (str "P1")
    (printNat p.width ++ 32 :: (printNat p.height ++ 10 ::
      p.data.flatMap (fun row => row.flatMap bitBytes ++ [10]))) (by decide)
  have e2 : trimSpace (str "P1" ++ [10]) = str "P1" := by decide
  have hpre : ∀ c ∈ printNat p.width ++ 32 :: printNat p.height, c ≠ 10 := by
    intro c hc
    rw [List.mem_append, List.mem_cons] at hc
    rcases hc with hc | hc | hc
    · exact printNat_no_nl c hc
    · omega
    · exact printNat_no_nl c hc
  have hshape : printNat p.width ++ 32 :: (printNat p.height ++ 10 ::
        p.data.flatMap (fun row => row.flatMap bitBytes ++ [10]))
      = (printNat p.width ++ 32 :: printNat p.height) ++ 10 ::
        p.data.flatMap (fun row => row.flatMap bitBytes ++ [10]) := by
    simp
  have e4 := readStringNL_append (printNat p.width ++ 32 :: printNat p.height)
    (p.data.flatMap (fun row => row.flatMap bitBytes ++ [10])) hpre
  have e5 : trimSpace ((printNat p.width ++ 32 :: printNat p.height) ++ [10])
      = printNat p.width ++ 32 :: printNat p.height := by
    apply trimSpace_concat_nl
    · exact head_printNat_append_not_ws p.width _
    · intro c hc
      rw [show printNat p.width ++ 32 :: printNat p.height
          = (printNat p.width ++ [32]) ++ printNat p.height by simp] at hc
      exact getLast_append_printNat_not_ws p.height _ c hc
  have e6 := sscanf2_print p.width p.height hw64 hh64
  have e7 : readP1Rows p.width p.height
      (p.data.flatMap (fun row => row.flatMap bitBytes ++ [10])) = .ok p.data := by
    have := readP1Rows_ok p.width p.data [] hrow
    rw [List.append_nil, hlen] at this
    exact this
  have hg2 : ((p.height : Int) < 0 ∨ (0 < (p.height : Int) ∧ (p.width : Int) < 0)) ↔ False := by
    constructor
    · intro hcon
      rcases hcon with hcon | ⟨_, hcon⟩ <;> omega
    · intro hcon
      exact hcon.elim
  have hstruct : (⟨p.data, p.width, p.height, str "P1"⟩ : PBM) = p := by
    rw [← hm]
  rw [hshape] at e1
  unfold ReadPBM
  rw [hshape, e1, orErr_some]
  simp only [e2, e4, orErr_some, e5, e6, ne_eq]
  rw [if_neg (by decide)]
  simp only [Int.toNat_natCast, hg2, if_false]
  rw [if_pos trivial, e7, DRes_map_ok, hstruct]

theorem packRowAux_nil (f : Nat) : packRowAux f [] = [] := by cases f <;> rfl

theorem packRowAux_congr : ∀ (f f' : Nat) (row : List Bool), row.length ≤ f →
    row.length ≤ f' → packRowAux f row = packRowAux f' row := by
  intro f
  induction f with
  | zero =>
    intro f' row h _
    have hnil : row = [] := List.eq_nil_of_length_eq_zero (by omega)
    subst hnil
    rw [packRowAux_nil, packRowAux_nil]
  | succ f ih =>
    intro f' row h h'
    cases row with
    | nil => rw [packRowAux_nil, packRowAux_nil]
    | cons b t =>
      cases f' with
      | zero => simp at h'
      | succ f' =>
        show byteOfBits ((b :: t).take 8) :: packRowAux f ((b :: t).drop 8)
          = byteOfBits ((b :: t).take 8) :: packRowAux f' ((b :: t).drop 8)
        have hd : ((b :: t).drop 8).length ≤ f := by
          rw [List.length_drop]
          simp only [List.length_cons] at h ⊢
          omega
        have hd' : ((b :: t).drop 8).length ≤ f' := by
          rw [List.length_drop]
          simp only [List.length_cons] at h' ⊢
          omega
        rw [ih f' _ hd hd']

theorem packRow_nil : packRow [] = [] := rfl

theorem packRow_cons (b : Bool) (t : List Bool) :
    packRow (b :: t) = byteOfBits ((b :: t).take 8) :: packRow ((b :: t).drop 8) := by
  show packRowAux (t.length + 1) (b :: t) = _
  show byteOfBits ((b :: t).take 8) :: packRowAux t.length ((b :: t).drop 8) = _
  unfold packRow
  congr 1
  apply packRowAux_congr
  · rw [List.length_drop, List.length_cons]; omega
  · exact le_rfl

theorem packRow_length : ∀ (f : Nat) (row : List Bool), row.length ≤ f →
    (packRow row).length = (row.length + 7) / 8 := by
  intro f
  induction f with
  | zero =>
    intro row h
    have hnil : row = [] := List.eq_nil_of_length_eq_zero (by omega)
    subst hnil
    rfl
  | succ f ih =>
    intro row h
    cases row with
    | nil => rfl
    | cons b t =>
      rw [packRow_cons, List.length_cons]
      have hd : ((b :: t).drop 8).length ≤ f := by
        rw [List.length_drop]
        simp only [List.length_cons] at h ⊢
        omega
      rw [ih _ hd, List.length_drop]
      simp only [List.length_cons]
      omega

theorem packRow_getD : ∀ (k : Nat) (row : List Bool),
    (packRow row).getD k 0 = byteOfBits ((row.drop (8 * k)).take 8) := by
  intro k
  induction k with
  | zero =>
    intro row
    cases row with
    | nil => rfl
    | cons b t =>
      rw [packRow_cons]
      simp [List.getD_cons_zero]
  | succ k ih =>
    intro row
    cases row with
    | nil =>
      show (0 : Nat) = byteOfBits []
      rfl
    | cons b t =>
      rw [packRow_cons, List.getD_cons_succ, ih ((b :: t).drop 8), List.drop_drop,
        show 8 + 8 * k = 8 * (k + 1) by ring]

theorem beVal_lt (bits : List Bool) : beVal bits < 2 ^ bits.length := by
  induction bits with
  | nil => simp [beVal]
  | cons b t ih =>
    unfold beVal
    rw [List.length_cons, pow_succ]
    cases b
    · simp only [Bool.false_eq_true, if_false, Nat.zero_add]
      omega
    · simp only [if_true]
      omega

theorem beVal_div_mod (bits : List Bool) : ∀ i, i < bits.length →
    beVal bits / 2 ^ (bits.length - 1 - i) % 2 = if bits.getD i false then 1 else 0 := by
  induction bits with
  | nil => intro i hi; simp at hi
  | cons b t ih =>
    intro i hi
    rw [List.length_cons] at hi
    cases i with
    | zero =>
      unfold beVal
      rw [List.getD_cons_zero]
      have hlen : t.length + 1 - 1 - 0 = t.length := by omega
      rw [List.length_cons, hlen]
      have hr := beVal_lt t
      cases b with
      | false =>
        simp only [Bool.false_eq_true, if_false, Nat.zero_add]
        rw [Nat.div_eq_of_lt hr]
      | true =>
        simp only [if_true]
        rw [show 2 ^ t.length + beVal t = beVal t + 2 ^ t.length * 1 by ring]
        rw [Nat.add_mul_div_left _ _ (pow_pos (by norm_num : (0 : Nat) < 2) _),
          Nat.div_eq_of_lt hr]
    | succ i =>
      unfold beVal
      rw [List.getD_cons_succ, List.length_cons]
      have hexp : t.length + 1 - 1 - (i + 1) = t.length - 1 - i := by omega
      rw [hexp]
      have hit : i < t.length := by omega
      have hsplit : 2 ^ t.length = 2 ^ (i + 1) * 2 ^ (t.length - 1 - i) := by
        rw [← pow_add]
        congr 1
        omega
      cases b with
      | false =>
        simp only [Bool.false_eq_true, if_false, Nat.zero_add]
        exact ih i hit
      | true =>
        simp only [if_true]
        rw [hsplit,
          show 2 ^ (i + 1) * 2 ^ (t.length - 1 - i) + beVal t
            = beVal t + 2 ^ (t.length - 1 - i) * 2 ^ (i + 1) by ring,
          Nat.add_mul_div_left _ _ (pow_pos (by norm_num : (0 : Nat) < 2) _)]
        rw [show beVal t / 2 ^ (t.length - 1 - i) + 2 ^ (i + 1)
            = beVal t / 2 ^ (t.length - 1 - i) + 2 ^ i * 2 by ring]
        rw [Nat.add_mul_mod_self_right]
        exact ih i hit

theorem unpackRow_packRow (row : List Bool) (w : Nat) (hw : row.length = w) :
    unpackRow w (packRow row) = row := by
  subst hw
  unfold unpackRow
  have hpt : ∀ x ∈ List.range row.length,
      decide ((packRow row).getD (x / 8) 0 / 2 ^ (7 - x % 8) % 2 = 1)
        = row.getD x false := by
    intro x hx
    rw [List.mem_range] at hx
    rw [packRow_getD]
    have hchunklen : ((row.drop (8 * (x / 8))).take 8).length
        = min 8 (row.length - 8 * (x / 8)) := by
      rw [List.length_take, List.length_drop]
    have hxmod : x % 8 < ((row.drop (8 * (x / 8))).take 8).length := by
      rw [hchunklen]
      have h1 : x % 8 < 8 := Nat.mod_lt _ (by norm_num)
      have h2 : 8 * (x / 8) + x % 8 = x := Nat.div_add_mod x 8
      omega
    have hchunk8 : ((row.drop (8 * (x / 8))).take 8).length ≤ 8 := by
      rw [hchunklen]; omega
    set chunk := (row.drop (8 * (x / 8))).take 8 with hchunk
    have hexp : 7 - x % 8 = (chunk.length - 1 - x % 8) + (8 - chunk.length) := by
      omega
    unfold byteOfBits
    rw [hexp, pow_add,
      show beVal chunk * 2 ^ (8 - chunk.length) = beVal chunk * 2 ^ (8 - chunk.length) from rfl]
    rw [show (2 : Nat) ^ (chunk.length - 1 - x % 8) * 2 ^ (8 - chunk.length)
        = 2 ^ (8 - chunk.length) * 2 ^ (chunk.length - 1 - x % 8) by ring]
    rw [show beVal chunk * 2 ^ (8 - chunk.length) = 2 ^ (8 - chunk.length) * beVal chunk by ring]
    rw [Nat.mul_div_mul_left _ _ (pow_pos (by norm_num : (0 : Nat) < 2) _)]
    rw [beVal_div_mod chunk (x % 8) hxmod]
    have hget : chunk.getD (x % 8) false = row.getD x false := by
      have hlt2 : 8 * (x / 8) + x % 8 < row.length := by
        have := Nat.div_add_mod x 8
        omega
      rw [List.getD_eq_getElem chunk false hxmod,
        List.getD_eq_getElem row false (by omega : x < row.length)]
      rw [List.getElem_take, List.getElem_drop]
      congr 1
      exact Nat.div_add_mod x 8
    rw [hget]
    cases row.getD x false <;> decide
  calc (List.range row.length).map (fun x =>
        decide ((packRow row).getD (x / 8) 0 / 2 ^ (7 - x % 8) % 2 = 1))
      = (List.range row.length).map (fun x => row.getD x false) :=
        List.map_congr_left hpt
  _ = row := range_map_getD row false

theorem readP4Rows_ok (w : Nat) (hw : 0 < w) : ∀ (rows : List (List Bool)) (rest : Bytes),
    (∀ r ∈ rows, r.length = w) →
    readP4Rows ((w + 7) / 8) w rows.length (rows.flatMap packRow ++ rest) = .ok rows := by
  intro rows
  induction rows with
  | nil => intro rest _; rfl
  | cons row rows' ih =>
    intro rest h
    rw [List.length_cons, List.flatMap_cons, List.append_assoc]
    have hrowlen : (packRow row).length = (w + 7) / 8 := by
      rw [packRow_length row.length row le_rfl, h row (by simp)]
    have hbpr : 0 < (w + 7) / 8 := by omega
    have hslen : (packRow row ++ (rows'.flatMap packRow ++ rest)).length
        = (w + 7) / 8 + (rows'.flatMap packRow ++ rest).length := by
      rw [List.length_append, hrowlen]
    simp only [readP4Rows]
    rw [if_neg (by rw [hslen]; omega), if_neg (by rw [hslen]; omega)]
    rw [List.take_left' hrowlen, List.drop_left' hrowlen]
    rw [ih rest (fun r hr => h r (by simp [hr]))]
    rw [DRes_map_ok, unpackRow_packRow row w (h row (by simp))]

theorem save_p4_structure (p : PBM) (hlen : p.data.length = p.height)
    (hrow : ∀ r ∈ p.data, r.length = p.width) (hm : p.magicNumber = str "P4") :
    p.Save = str "P4" ++ 10 :: (printNat p.width ++ 32 :: (printNat p.height ++ 10 ::
      p.data.flatMap packRow)) := by
  unfold PBM.Save
  rw [hm, if_neg (by decide), if_pos rfl]
  have hbody : (List.range p.height).flatMap (fun y =>
      packRow ((List.range p.width).map (fun x => (p.data.getD y []).getD x false)))
      = p.data.flatMap packRow := by
    rw [← hlen,
      range_flatMap_getD p.data ([] : List Bool) (fun row =>
        packRow ((List.range p.width).map (fun x => row.getD x false)))]
    apply flatMap_congr_mem
    intro row hr
    rw [← hrow row hr, range_map_getD row false]
  rw [hbody]
  simp

theorem readPBM_save_p4 (p : PBM) (hv : p.valid) (hm : p.magicNumber = str "P4")
    (hw64 : (p.width : Int) ≤ maxI64) (hh64 : (p.height : Int) ≤ maxI64) :
    ReadPBM p.Save = .ok p := by
  obtain ⟨hw, hh, hlen, hrow⟩ := hv
  rw [save_p4_structure p hlen hrow hm]
  have hshape : printNat p.width ++ 32 :: (printNat p.height ++ 10 :: p.data.flatMap packRow)
      = (printNat p.width ++ 32 :: printNat p.height) ++ 10 :: p.data.flatMap packRow := by
    simp
  have e1 := readStringNL_append (str "P4")
    (printNat p.width ++ 32 :: (printNat p.height ++ 10 :: p.data.flatMap packRow)) (by decide)
  rw [hshape] at e1
  have e2 : trimSpace (str "P4" ++ [10]) = str "P4" := by decide
  have hpre : ∀ c ∈ printNat p.width ++ 32 :: printNat p.height, c ≠ 10 := by
    intro c hc
    rw [List.mem_append, List.mem_cons] at hc
    rcases hc with hc | hc | hc
    · exact printNat_no_nl c hc
    · omega
    · exact printNat_no_nl c hc
  have e4 := readStringNL_append (printNat p.width ++ 32 :: printNat p.height)
    (p.data.flatMap packRow) hpre
  have e5 : trimSpace ((printNat p.width ++ 32 :: printNat p.height) ++ [10])
      = printNat p.width ++ 32 :: printNat p.height := by
    apply trimSpace_concat_nl
    · exact head_printNat_append_not_ws p.width _
    · intro c hc
      rw [show printNat p.width ++ 32 :: printNat p.height
          = (printNat p.width ++ [32]) ++ printNat p.height by simp] at hc
      exact getLast_append_printNat_not_ws p.height _ c hc
  have e6 := sscanf2_print p.width p.height hw64 hh64
  have e7 : readP4Rows ((p.width + 7) / 8) p.width p.height (p.data.flatMap packRow)
      = .ok p.data := by
    have := readP4Rows_ok p.width hw p.data [] hrow
    rw [List.append_nil, hlen] at this
    exact this
  have hg2 : ((p.height : Int) < 0 ∨ (0 < (p.height : Int) ∧ (p.width : Int) < 0)) ↔ False := by
    constructor
    · intro hcon
      rcases hcon with hcon | ⟨_, hcon⟩ <;> omega
    · intro hcon
      exact hcon.elim
  have hstruct : (⟨p.data, p.width, p.height, str "P4"⟩ : PBM) = p := by
    rw [← hm]
  unfold ReadPBM
  rw [hshape, e1, orErr_some]
  simp only [e2, e4, orErr_some, e5, e6, ne_eq]
  rw [if_neg (by decide)]
  simp only [Int.toNat_natCast, hg2, if_false]
  rw [if_neg (by decide), e7, DRes_map_ok, hstruct]

theorem pgmRow_chars (row : List Nat) :
    ∀ c ∈ row.flatMap (fun v => printNat v ++ [32]), (48 ≤ c ∧ c < 58) ∨ c = 32 := by
  intro c hc
  rw [List.mem_flatMap] at hc
  obtain ⟨v, _, hv⟩ := hc
  rw [List.mem_append] at hv
  rcases hv with hv | hv
  · exact Or.inl (printNat_digits v c hv)
  · simp at hv
    omega

theorem pgmRow_no_nl (row : List Nat) :
    ∀ c ∈ row.flatMap (fun v => printNat v ++ [32]), c ≠ 10 := by
  intro c hc
  rcases pgmRow_chars row c hc with h | h <;> omega

theorem dropTrailCR_pgmRow (row : List Nat) :
    dropTrailCR (row.flatMap (fun v => printNat v ++ [32]))
      = row.flatMap (fun v => printNat v ++ [32]) := by
  apply dropTrailCR_eq_self
  intro c hc
  have := pgmRow_chars row c (List.mem_of_getLast?_eq_some hc)
  omega

theorem fields_pgmRow (row : List Nat) :
    fields (row.flatMap (fun v => printNat v ++ [32])) = row.map printNat := by
  induction row with
  | nil => rfl
  | cons v t ih =>
    rw [List.flatMap_cons, List.map_cons]
    rw [show printNat v ++ [32] ++ t.flatMap (fun v => printNat v ++ [32])
        = printNat v ++ 32 :: t.flatMap (fun v => printNat v ++ [32]) by simp]
    rw [fields_token _ 32 _ (printNat_ne_nil v) (fun x hx => printNat_not_ws x hx) (by decide),
      ih]

theorem readPGMRowVals_ok : ∀ (row : List Nat), (∀ v ∈ row, v < 256) →
    readPGMRowVals row.length (row.map printNat) = .ok row := by
  intro row
  induction row with
  | nil => intro _; rfl
  | cons v t ih =>
    intro h
    rw [List.length_cons, List.map_cons]
    simp only [readPGMRowVals]
    rw [parseUint8_printNat v (by have := h v (by simp); omega), orErr_some,
      ih (fun x hx => h x (by simp [hx])), DRes_map_ok]

theorem readPGMRows_ok (w : Nat) : ∀ (rows : List (List Nat)) (rest : Bytes),
    (∀ r ∈ rows, r.length = w) → (∀ r ∈ rows, ∀ v ∈ r, v < 256) →
    readPGMRows w rows.length
      (rows.flatMap (fun row => row.flatMap (fun v => printNat v ++ [32]) ++ [10]) ++ rest)
      = .ok rows := by
  intro rows
  induction rows with
  | nil => intro rest _ _; rfl
  | cons row rows' ih =>
    intro rest h hv
    rw [List.length_cons, List.flatMap_cons, List.append_assoc]
    have hassoc : row.flatMap (fun v => printNat v ++ [32]) ++ [10] ++
          (rows'.flatMap (fun r => r.flatMap (fun v => printNat v ++ [32]) ++ [10]) ++ rest)
        = row.flatMap (fun v => printNat v ++ [32]) ++ 10 ::
          (rows'.flatMap (fun r => r.flatMap (fun v => printNat v ++ [32]) ++ [10]) ++ rest) := by
      simp
    rw [hassoc]
    simp only [readPGMRows]
    rw [nextLineT_append _ _ (pgmRow_no_nl row)]
    simp only [dropTrailCR_pgmRow, fields_pgmRow]
    have hrl := h row (by simp)
    have hvals_ok : readPGMRowVals w (row.map printNat) = .ok row := by
      rw [← hrl]
      exact readPGMRowVals_ok row (hv row (by simp))
    rw [hvals_ok, DRes_bind_ok,
      ih rest (fun r hr => h r (by simp [hr])) (fun r hr => hv r (by simp [hr])), DRes_map_ok]

theorem save_pgm_structure (g : PGM) (hlen : g.data.length = g.height)
    (hrow : ∀ r ∈ g.data, r.length = g.width) :
    g.Save = g.magicNumber ++ 10 :: (printNat g.width ++ 32 :: (printNat g.height ++ 10 ::
      (printNat g.max ++ 10 ::
        g.data.flatMap (fun row => row.flatMap (fun v => printNat v ++ [32]) ++ [10])))) := by
  unfold PGM.Save
  have hbody : (List.range g.height).flatMap (fun i =>
      (List.range g.width).flatMap (fun j => printNat ((g.data.getD i []).getD j 0) ++ [32])
        ++ [10])
      = g.data.flatMap (fun row => row.flatMap (fun v => printNat v ++ [32]) ++ [10]) := by
    rw [← hlen,
      range_flatMap_getD g.data ([] : List Nat) (fun row =>
        (List.range g.width).flatMap (fun j => printNat (row.getD j 0) ++ [32]) ++ [10])]
    apply flatMap_congr_mem
    intro row hr
    rw [← hrow row hr, range_flatMap_getD row 0 (fun v => printNat v ++ [32])]
  rw [hbody]
  simp

theorem readPGM_save (g : PGM) (hv : g.valid) (hm : g.magicNumber = str "P2")
    (hw64 : (g.width : Int) ≤ maxI64) (hh64 : (g.height : Int) ≤ maxI64)
    (hmax64 : (g.max : Int) ≤ maxI64) :
    ReadPGM g.Save = .ok g := by
  obtain ⟨hw, hh, hlen, hrow, hvals⟩ := hv
  rw [save_pgm_structure g hlen hrow, hm]
  have e1 := nextLineT_append (str "P2")
    (printNat g.width ++ 32 :: (printNat g.height ++ 10 ::
      (printNat g.max ++ 10 ::
        g.data.flatMap (fun row => row.flatMap (fun v => printNat v ++ [32]) ++ [10]))))
    (by decide)
  rw [show dropTrailCR (str "P2") = str "P2" by decide] at e1
  have hpre : ∀ c ∈ printNat g.width ++ 32 :: printNat g.height, c ≠ 10 := by
    intro c hc
    rw [List.mem_append, List.mem_cons] at hc
    rcases hc with hc | hc | hc
    · exact printNat_no_nl c hc
    · omega
    · exact printNat_no_nl c hc
  have hdims_last : ∀ c, (printNat g.width ++ 32 :: printNat g.height).getLast? = some c →
      isWS c = false := by
    intro c hc
    rw [show printNat g.width ++ 32 :: printNat g.height
        = (printNat g.width ++ [32]) ++ printNat g.height by simp] at hc
    exact getLast_append_printNat_not_ws g.height _ c hc
  have e2 : nextLineT ((printNat g.width ++ 32 :: printNat g.height) ++ 10 ::
      (printNat g.max ++ 10 ::
        g.data.flatMap (fun row => row.flatMap (fun v => printNat v ++ [32]) ++ [10])))
      = (printNat g.width ++ 32 :: printNat g.height,
         printNat g.max ++ 10 ::
           g.data.flatMap (fun row => row.flatMap (fun v => printNat v ++ [32]) ++ [10])) := by
    rw [nextLineT_append _ _ hpre, dropTrailCR_eq_self _ (by
      intro c hc
      have := hdims_last c hc
      simp only [isWS, Bool.or_eq_false_iff, decide_eq_false_iff_not] at this
      omega)]
  have e3 : trimSpace (printNat g.width ++ 32 :: printNat g.height)
      = printNat g.width ++ 32 :: printNat g.height := by
    apply trimSpace_eq_self
    · exact head_printNat_append_not_ws g.width _
    · exact hdims_last
  have e4 : splitOnSpace (printNat g.width ++ 32 :: printNat g.height)
      = [printNat g.width, printNat g.height] := by
    rw [splitOnSpace_pair _ _ (fun x hx => by have := printNat_digits g.width x hx; omega),
      splitOnSpace_no_space _ (fun x hx => by have := printNat_digits g.height x hx; omega)]
  have e5 : nextLineT (printNat g.max ++ 10 ::
      g.data.flatMap (fun row => row.flatMap (fun v => printNat v ++ [32]) ++ [10]))
      = (printNat g.max,
         g.data.flatMap (fun row => row.flatMap (fun v => printNat v ++ [32]) ++ [10])) := by
    rw [nextLineT_append _ _ (fun c hc => printNat_no_nl c hc), dropTrailCR_eq_self _ (by
      intro c hc
      have := printNat_digits g.max c (List.mem_of_getLast?_eq_some hc)
      omega)]
  have e6 : trimSpace (printNat g.max) = printNat g.max := by
    apply trimSpace_eq_self
    · intro c hc
      rcases hp : printNat g.max with _ | ⟨d, t⟩
      · exact absurd hp (printNat_ne_nil g.max)
      · rw [hp] at hc
        simp only [List.head?_cons, Option.some_inj] at hc
        rw [← hc]
        exact printNat_not_ws d (by rw [hp]; simp)
    · intro c hc
      exact printNat_not_ws c (List.mem_of_getLast?_eq_some hc)
  have e7 : readPGMRows g.width g.height
      (g.data.flatMap (fun row => row.flatMap (fun v => printNat v ++ [32]) ++ [10]))
      = .ok g.data := by
    have := readPGMRows_ok g.width g.data [] hrow hvals
    rw [List.append_nil, hlen] at this
    exact this
  have hg2 : ((g.height : Int) < 0 ∨ (0 < (g.height : Int) ∧ (g.width : Int) < 0)) ↔ False := by
    constructor
    · intro hcon
      rcases hcon with hcon | ⟨_, hcon⟩ <;> omega
    · intro hcon
      exact hcon.elim
  have hmax' : (g.max : Int) ≤ 2 ^ 63 - 1 := hmax64
  have hmaxmod : (((g.max : Int) % 2 ^ 64).toNat) = g.max := by omega
  have hstruct : (⟨g.data, g.width, g.height, str "P2", g.max⟩ : PGM) = g := by
    rw [← hm]
  unfold ReadPGM
  rw [show printNat g.width ++ 32 :: (printNat g.height ++ 10 ::
      (printNat g.max ++ 10 ::
        g.data.flatMap (fun row => row.flatMap (fun v => printNat v ++ [32]) ++ [10])))
      = (printNat g.width ++ 32 :: printNat g.height) ++ 10 ::
      (printNat g.max ++ 10 ::
        g.data.flatMap (fun row => row.flatMap (fun v => printNat v ++ [32]) ++ [10]))
    by simp] at e1 ⊢
  simp only [e1, e2, e3, e4, e5, e6]
  rw [show trimSpace (str "P2") = str "P2" by decide]
  simp only [List.getD_cons_zero, List.getD_cons_succ, List.length_cons, List.length_nil]
  rw [atoi_printNat g.width hw64, orErr_some]
  rw [if_neg (by norm_num)]
  rw [atoi_printNat g.height hh64, orErr_some, atoi_printNat g.max hmax64, orErr_some]
  simp only [Int.toNat_natCast, hg2, if_false, hmaxmod]
  rw [e7, DRes_map_ok, hstruct]

/-- One pixel's ASCII P3 output (`"%d %d %d "`). -/
def pxBytes (px : Pixel) : Bytes :=
  printNat px.R ++ [32] ++ printNat px.G ++ [32] ++ printNat px.B ++ [32]

theorem readPPMRow_succ (w : Nat) (s : Bytes) :
    readPPMRow (w + 1) s
      = ((readPixTriple s).1 :: (readPPMRow w (readPixTriple s).2).1,
         (readPPMRow w (readPixTriple s).2).2) := rfl

theorem readPPMRows_succ (w h : Nat) (s : Bytes) :
    readPPMRows w (h + 1) s
      = ((readPPMRow w s).1 :: (readPPMRows w h (readPPMRow w s).2).1,
         (readPPMRows w h (readPPMRow w s).2).2) := rfl

theorem save_ppm_structure (p : PPM) (hlen : p.data.length = p.height)
    (hrow : ∀ r ∈ p.data, r.length = p.width) :
    p.Save = p.magicNumber ++ 10 :: (printNat p.width ++ 32 :: (printNat p.height ++ 10 ::
      (printNat p.max ++ 10 ::
        p.data.flatMap (fun row => row.flatMap pxBytes ++ [10])))) := by
  unfold PPM.Save
  have hbody : (List.range p.height).flatMap (fun i =>
      (List.range p.width).flatMap (fun j =>
        printNat ((p.data.getD i []).getD j ⟨0, 0, 0⟩).R ++ [32] ++
        printNat ((p.data.getD i []).getD j ⟨0, 0, 0⟩).G ++ [32] ++
        printNat ((p.data.getD i []).getD j ⟨0, 0, 0⟩).B ++ [32]) ++ [10])
      = p.data.flatMap (fun row => row.flatMap pxBytes ++ [10]) := by
    rw [← hlen,
      range_flatMap_getD p.data ([] : List Pixel) (fun row =>
        (List.range p.width).flatMap (fun j =>
          printNat (row.getD j ⟨0, 0, 0⟩).R ++ [32] ++
          printNat (row.getD j ⟨0, 0, 0⟩).G ++ [32] ++
          printNat (row.getD j ⟨0, 0, 0⟩).B ++ [32]) ++ [10])]
    apply flatMap_congr_mem
    intro row hr
    rw [← hrow row hr]
    show ((List.range row.length).flatMap fun j => pxBytes (row.getD j ⟨0, 0, 0⟩)) ++ [10]
        = row.flatMap pxBytes ++ [10]
    rw [range_flatMap_getD row (⟨0, 0, 0⟩ : Pixel) pxBytes]
  rw [hbody]
  simp

theorem readPixTriple_ok (px : Pixel) (hR : px.R < 256) (hG : px.G < 256) (hB : px.B < 256)
    (pre : Bytes) (rest : Bytes) (hpre : ∀ c ∈ pre, isWS c = true) :
    readPixTriple (pre ++ (pxBytes px ++ rest)) = (px, 32 :: rest) := by
  have hshape : pxBytes px ++ rest
      = printNat px.R ++ 32 :: (printNat px.G ++ 32 :: (printNat px.B ++ 32 :: rest)) := by
    unfold pxBytes
    simp
  have h1 := nextWord_pre pre (printNat px.R) 32
    (printNat px.G ++ 32 :: (printNat px.B ++ 32 :: rest)) hpre (printNat_ne_nil px.R)
    (fun x hx => printNat_not_ws x hx) (by decide)
  have h2 := nextWord_pre [32] (printNat px.G) 32 (printNat px.B ++ 32 :: rest)
    (by decide) (printNat_ne_nil px.G) (fun x hx => printNat_not_ws x hx) (by decide)
  have h3 := nextWord_pre [32] (printNat px.B) 32 rest
    (by decide) (printNat_ne_nil px.B) (fun x hx => printNat_not_ws x hx) (by decide)
  rw [show ([32] : Bytes) ++ (printNat px.G ++ 32 :: (printNat px.B ++ 32 :: rest))
      = 32 :: (printNat px.G ++ 32 :: (printNat px.B ++ 32 :: rest)) by rfl] at h2
  rw [show ([32] : Bytes) ++ (printNat px.B ++ 32 :: rest)
      = 32 :: (printNat px.B ++ 32 :: rest) by rfl] at h3
  unfold readPixTriple
  rw [hshape, h1]
  simp only [h2, h3]
  rw [parseUint8Lenient_printNat px.R (by omega), parseUint8Lenient_printNat px.G (by omega),
    parseUint8Lenient_printNat px.B (by omega)]

theorem readPPMRow_ok : ∀ (row' : List Pixel) (px : Pixel) (pre : Bytes) (rest : Bytes),
    (∀ c ∈ pre, isWS c = true) →
    (∀ q ∈ px :: row', q.R < 256 ∧ q.G < 256 ∧ q.B < 256) →
    readPPMRow (px :: row').length (pre ++ ((px :: row').flatMap pxBytes ++ rest))
      = (px :: row', 32 :: rest) := by
  intro row'
  induction row' with
  | nil =>
    intro px pre rest hpre hch
    obtain ⟨hR, hG, hB⟩ := hch px (by simp)
    have h1 : ((px :: List.nil).flatMap pxBytes ++ rest) = pxBytes px ++ rest := by simp
    rw [List.length_cons, List.length_nil, h1, readPPMRow_succ,
      readPixTriple_ok px hR hG hB pre rest hpre]
    rfl
  | cons px2 row'' ih =>
    intro px pre rest hpre hch
    obtain ⟨hR, hG, hB⟩ := hch px (by simp)
    have hshape : ((px :: px2 :: row'').flatMap pxBytes ++ rest)
        = pxBytes px ++ ((px2 :: row'').flatMap pxBytes ++ rest) := by
      rw [List.flatMap_cons]
      simp
    rw [List.length_cons, hshape, readPPMRow_succ,
      readPixTriple_ok px hR hG hB pre _ hpre]
    show (px :: (readPPMRow (px2 :: row'').length
            (32 :: ((px2 :: row'').flatMap pxBytes ++ rest))).1,
          (readPPMRow (px2 :: row'').length
            (32 :: ((px2 :: row'').flatMap pxBytes ++ rest))).2)
        = (px :: px2 :: row'', 32 :: rest)
    have hr := ih px2 [32] rest (by decide) (fun q hq => hch q (by simp at hq ⊢; tauto))
    rw [show (32 :: ((px2 :: row'').flatMap pxBytes ++ rest) : Bytes)
        = [32] ++ ((px2 :: row'').flatMap pxBytes ++ rest) by rfl, hr]

theorem readPPMRows_fst (w : Nat) (hw : 0 < w) : ∀ (rows : List (List Pixel)) (pre rest : Bytes),
    (∀ c ∈ pre, isWS c = true) →
    (∀ r ∈ rows, r.length = w) →
    (∀ r ∈ rows, ∀ q ∈ r, q.R < 256 ∧ q.G < 256 ∧ q.B < 256) →
    (readPPMRows w rows.length
      (pre ++ (rows.flatMap (fun row => row.flatMap pxBytes ++ [10]) ++ rest))).1 = rows := by
  intro rows
  induction rows with
  | nil => intro pre rest _ _ _; rfl
  | cons row rows' ih =>
    intro pre rest hpre h hch
    have hrl : row.length = w := h row (by simp)
    obtain ⟨px, row'', hrow⟩ : ∃ a l, row = a :: l := by
      cases row with
      | nil => simp at hrl; omega
      | cons a l => exact ⟨a, l, rfl⟩
    have hshape : (row :: rows').flatMap (fun r => r.flatMap pxBytes ++ [10]) ++ rest
        = row.flatMap pxBytes ++ (10 ::
            (rows'.flatMap (fun r => r.flatMap pxBytes ++ [10]) ++ rest)) := by
      rw [List.flatMap_cons]
      simp
    rw [List.length_cons, hshape, readPPMRows_succ]
    have hread : readPPMRow w (pre ++ (row.flatMap pxBytes ++ (10 ::
        (rows'.flatMap (fun r => r.flatMap pxBytes ++ [10]) ++ rest))))
        = (row, 32 :: 10 :: (rows'.flatMap (fun r => r.flatMap pxBytes ++ [10]) ++ rest)) := by
      have h0 := readPPMRow_ok row'' px pre
        (10 :: (rows'.flatMap (fun r => r.flatMap pxBytes ++ [10]) ++ rest)) hpre
        (by rw [← hrow]; exact hch row (by simp))
      rw [← hrow] at h0
      rw [hrl] at h0
      exact h0
    rw [hread]
    show row :: (readPPMRows w rows'.length
          (32 :: 10 :: (rows'.flatMap (fun r => r.flatMap pxBytes ++ [10]) ++ rest))).1
        = row :: rows'
    have hnext := ih [32, 10] rest (by decide) (fun r hr => h r (by simp [hr]))
      (fun r hr => hch r (by simp [hr]))
    rw [show (32 :: 10 :: (rows'.flatMap (fun r => r.flatMap pxBytes ++ [10]) ++ rest) : Bytes)
        = [32, 10] ++ (rows'.flatMap (fun r => r.flatMap pxBytes ++ [10]) ++ rest) by rfl, hnext]

theorem readPPM_save (p : PPM) (hv : p.valid) (hm : p.magicNumber = str "P3")
    (hw64 : (p.width : Int) ≤ maxI64) (hh64 : (p.height : Int) ≤ maxI64) :
    ReadPPM p.Save = .ok p := by
  obtain ⟨hw, hh, hlen, hrow, hmax, hch⟩ := hv
  rw [save_ppm_structure p hlen hrow, hm]
  have h1 := nextWord_pre [] (str "P3") 10
    (printNat p.width ++ 32 :: (printNat p.height ++ 10 :: (printNat p.max ++ 10 ::
      p.data.flatMap (fun row => row.flatMap pxBytes ++ [10]))))
    (by simp) (by decide) (by decide) (by decide)
  rw [List.nil_append] at h1
  have h2 := nextWord_pre [10] (printNat p.width) 32
    (printNat p.height ++ 10 :: (printNat p.max ++ 10 ::
      p.data.flatMap (fun row => row.flatMap pxBytes ++ [10])))
    (by decide) (printNat_ne_nil _) (fun x hx => printNat_not_ws x hx) (by decide)
  have h3 := nextWord_pre [32] (printNat p.height) 10
    (printNat p.max ++ 10 :: p.data.flatMap (fun row => row.flatMap pxBytes ++ [10]))
    (by decide) (printNat_ne_nil _) (fun x hx => printNat_not_ws x hx) (by decide)
  have h4 := nextWord_pre [10] (printNat p.max) 10
    (p.data.flatMap (fun row => row.flatMap pxBytes ++ [10]))
    (by decide) (printNat_ne_nil _) (fun x hx => printNat_not_ws x hx) (by decide)
  rw [show ([10] : Bytes) ++ (printNat p.width ++ 32 :: (printNat p.height ++ 10 ::
      (printNat p.max ++ 10 :: p.data.flatMap (fun row => row.flatMap pxBytes ++ [10]))))
      = 10 :: (printNat p.width ++ 32 :: (printNat p.height ++ 10 ::
      (printNat p.max ++ 10 :: p.data.flatMap (fun row => row.flatMap pxBytes ++ [10]))))
    by rfl] at h2
  rw [show ([32] : Bytes) ++ (printNat p.height ++ 10 ::
      (printNat p.max ++ 10 :: p.data.flatMap (fun row => row.flatMap pxBytes ++ [10])))
      = 32 :: (printNat p.height ++ 10 ::
      (printNat p.max ++ 10 :: p.data.flatMap (fun row => row.flatMap pxBytes ++ [10])))
    by rfl] at h3
  rw [show ([10] : Bytes) ++ (printNat p.max ++ 10 ::
      p.data.flatMap (fun row => row.flatMap pxBytes ++ [10]))
      = 10 :: (printNat p.max ++ 10 ::
      p.data.flatMap (fun row => row.flatMap pxBytes ++ [10]))
    by rfl] at h4
  have hrows := readPPMRows_fst p.width hw p.data [10] [] (by decide) hrow hch
  rw [List.append_nil] at hrows
  rw [show ([10] : Bytes) ++ p.data.flatMap (fun row => row.flatMap pxBytes ++ [10])
      = 10 :: p.data.flatMap (fun row => row.flatMap pxBytes ++ [10]) by rfl] at hrows
  have hg2 : ((p.height : Int) < 0 ∨ (0 < (p.height : Int) ∧ (p.width : Int) < 0)) ↔ False := by
    constructor
    · intro hcon
      rcases hcon with hcon | ⟨_, hcon⟩ <;> omega
    · intro hcon
      exact hcon.elim
  have hmaxmod : (((p.max : Int) % 256).toNat) = p.max := by omega
  have hstruct : (⟨p.data, p.width, p.height, str "P3", p.max⟩ : PPM) = p := by
    rw [← hm]
  unfold ReadPPM
  simp only [h1, h2, h3, h4]
  rw [atoiLenient_printNat p.width hw64, atoiLenient_printNat p.height hh64,
    atoiLenient_printNat p.max (by unfold maxI64; omega)]
  simp only [Int.toNat_natCast, hg2, if_false, hmaxmod]
  rw [hlen] at hrows
  rw [hrows, hstruct]

theorem getD_map_range (n i : Nat) (f : Nat → α) (d : α) (h : i < n) :
    ((List.range n).map f).getD i d = f i := by
  rw [List.getD_eq_getElem?_getD, List.getElem?_map, List.getElem?_range h]
  rfl

theorem getD_set_self (l : List α) (n : Nat) (a d : α) (h : n < l.length) :
    (l.set n a).getD n d = a := by
  rw [List.getD_eq_getElem?_getD, List.getElem?_set_self h]
  rfl

theorem getD_set_ne (l : List α) (m n : Nat) (a d : α) (h : m ≠ n) :
    (l.set m a).getD n d = l.getD n d := by
  rw [List.getD_eq_getElem?_getD, List.getElem?_set_ne h, List.getD_eq_getElem?_getD]

/-- The index checks Go's unchecked `data[y][x] = value` would need to
avoid a panic: `y` and `x` must be nonnegative and within the actual
slice lengths. -/
def PPM.inB (p : PPM) (x y : Int) : Prop :=
  (0 ≤ y ∧ y.toNat < p.data.length) ∧ (0 ≤ x ∧ x.toNat < (p.data.getD y.toNat []).length)

instance (p : PPM) (x y : Int) : Decidable (p.inB x y) := by
  unfold PPM.inB
  infer_instance

theorem Set_none_iff (p : PPM) (x y : Int) (c : Pixel) :
    p.Set x y c = none ↔ ¬ p.inB x y := by
  unfold PPM.Set PPM.inB
  by_cases h1 : 0 ≤ y ∧ y.toNat < p.data.length
  · by_cases h2 : 0 ≤ x ∧ x.toNat < (p.data.getD y.toNat []).length
    · rw [if_pos h1, if_pos h2]
      exact ⟨fun hcon => Option.noConfusion hcon, fun hcon => absurd ⟨h1, h2⟩ hcon⟩
    · rw [if_pos h1, if_neg h2]
      exact ⟨fun _ hcon => h2 hcon.2, fun _ => rfl⟩
  · rw [if_neg h1]
    exact ⟨fun _ hcon => h1 hcon.1, fun _ => rfl⟩

theorem Set_some_fields (p : PPM) (x y : Int) (c : Pixel) (q : PPM)
    (h : p.Set x y c = some q) :
    0 ≤ x ∧ 0 ≤ y ∧ y.toNat < p.data.length ∧ x.toNat < (p.data.getD y.toNat []).length ∧
    q = { p with data := p.data.set y.toNat ((p.data.getD y.toNat []).set x.toNat c) } := by
  unfold PPM.Set at h
  split_ifs at h with h1 h2
  exact ⟨h2.1, h1.1, h1.2, h2.2, (Option.some.inj h).symm⟩

theorem At_Set_self (p : PPM) (x y : Int) (c : Pixel) (q : PPM)
    (h : p.Set x y c = some q) : q.At x y = c := by
  obtain ⟨hx, hy, hylen, hxlen, rfl⟩ := Set_some_fields p x y c q h
  unfold PPM.At
  rw [if_pos ⟨hx, hy⟩]
  show ((p.data.set y.toNat _).getD y.toNat []).getD x.toNat _ = c
  rw [getD_set_self _ _ _ _ hylen, getD_set_self _ _ _ _ hxlen]

theorem At_Set_other (p : PPM) (x y : Int) (c : Pixel) (q : PPM)
    (h : p.Set x y c = some q) (u v : Int) (hne : ¬(u = x ∧ v = y)) :
    q.At u v = p.At u v := by
  obtain ⟨hx, hy, hylen, hxlen, rfl⟩ := Set_some_fields p x y c q h
  unfold PPM.At
  by_cases huv : 0 ≤ u ∧ 0 ≤ v
  · rw [if_pos huv, if_pos huv]
    show ((p.data.set y.toNat _).getD v.toNat []).getD u.toNat _ = _
    by_cases hveq : v.toNat = y.toNat
    · have hv : v = y := by omega
      have hu : u ≠ x := fun he => hne ⟨he, hv⟩
      have hut : u.toNat ≠ x.toNat := by omega
      rw [hveq, getD_set_self _ _ _ _ hylen,
        getD_set_ne _ _ _ _ _ (fun he => hut he.symm)]
    · rw [getD_set_ne _ _ _ _ _ (fun he => hveq he.symm)]
  · rw [if_neg huv, if_neg huv]

theorem Set_inB_iff (p : PPM) (x y : Int) (c : Pixel) (q : PPM)
    (h : p.Set x y c = some q) (u v : Int) : q.inB u v ↔ p.inB u v := by
  obtain ⟨hx, hy, hylen, hxlen, rfl⟩ := Set_some_fields p x y c q h
  unfold PPM.inB
  show (_ ∧ _ < (p.data.set y.toNat _).length) ∧
    (_ ∧ _ < ((p.data.set y.toNat _).getD v.toNat []).length) ↔ _
  rw [List.length_set]
  by_cases hveq : v.toNat = y.toNat
  · rw [hveq, getD_set_self _ _ _ _ hylen, List.length_set]
  · rw [getD_set_ne _ _ _ _ _ (fun he => hveq he.symm)]

theorem drawPoints_cons (c : Pixel) (pt : Int × Int) (pts : List (Int × Int)) (g : PPM) :
    drawPoints c (pt :: pts) g
      = match g.Set pt.1 pt.2 c with
        | none => none
        | some g1 => drawPoints c pts g1 := rfl

theorem drawPoints_none (c : Pixel) : ∀ (pts : List (Int × Int)) (p : PPM),
    (∃ pt ∈ pts, ¬ p.inB pt.1 pt.2) → drawPoints c pts p = none := by
  intro pts
  induction pts with
  | nil =>
    rintro p ⟨pt, hmem, _⟩
    exact absurd hmem (by simp)
  | cons pt pts ih =>
    rintro p ⟨pt0, hmem, hnb⟩
    rw [drawPoints_cons]
    cases hset : p.Set pt.1 pt.2 c with
    | none => rfl
    | some g1 =>
      have hib : p.inB pt.1 pt.2 := by
        by_contra hcon
        rw [(Set_none_iff p pt.1 pt.2 c).mpr hcon] at hset
        exact Option.noConfusion hset
      rcases List.mem_cons.mp hmem with rfl | hmem2
      · exact absurd hib hnb
      · exact ih g1 ⟨pt0, hmem2,
          fun hcon => hnb ((Set_inB_iff p pt.1 pt.2 c g1 hset pt0.1 pt0.2).mp hcon)⟩

theorem drawPoints_some (c : Pixel) : ∀ (pts : List (Int × Int)) (p : PPM),
    (∀ pt ∈ pts, p.inB pt.1 pt.2) → ∃ q, drawPoints c pts p = some q := by
  intro pts
  induction pts with
  | nil => exact fun p _ => ⟨p, rfl⟩
  | cons pt pts ih =>
    intro p hall
    rw [drawPoints_cons]
    cases hset : p.Set pt.1 pt.2 c with
    | none =>
      exact absurd (hall pt (by simp)) ((Set_none_iff p pt.1 pt.2 c).mp hset)
    | some g1 =>
      exact ih g1 (fun pt' hpt' => (Set_inB_iff p pt.1 pt.2 c g1 hset pt'.1 pt'.2).mpr
        (hall pt' (List.mem_cons_of_mem pt hpt')))

theorem drawPoints_At (c : Pixel) : ∀ (pts : List (Int × Int)) (p q : PPM),
    drawPoints c pts p = some q →
    (∀ pt ∈ pts, q.At pt.1 pt.2 = c) ∧
    (∀ u v : Int, (u, v) ∉ pts → q.At u v = p.At u v) := by
  intro pts
  induction pts with
  | nil =>
    intro p q h
    obtain rfl : p = q := Option.some.inj h
    exact ⟨fun pt hpt => absurd hpt (by simp), fun u v _ => rfl⟩
  | cons pt pts ih =>
    intro p q h
    rw [drawPoints_cons] at h
    cases hset : p.Set pt.1 pt.2 c with
    | none =>
      rw [hset] at h
      exact Option.noConfusion h
    | some g1 =>
      rw [hset] at h
      replace h : drawPoints c pts g1 = some q := h
      obtain ⟨h1, h2⟩ := ih g1 q h
      constructor
      · intro pt' hpt'
        rcases List.mem_cons.mp hpt' with rfl | hmem
        · by_cases hmem2 : pt' ∈ pts
          · exact h1 pt' hmem2
          · have hpr : (pt'.1, pt'.2) ∉ pts := by
              rw [Prod.mk.eta]
              exact hmem2
            rw [h2 pt'.1 pt'.2 hpr]
            exact At_Set_self p pt'.1 pt'.2 c g1 hset
        · exact h1 pt' hmem
      · intro u v huv
        have hmem : (u, v) ∉ pts := fun hm => huv (List.mem_cons_of_mem pt hm)
        have hne : (u, v) ≠ pt := fun he => huv (he ▸ List.mem_cons_self (u, v) pts)
        rw [h2 u v hmem]
        exact At_Set_other p pt.1 pt.2 c g1 hset u v
          (fun ⟨he1, he2⟩ => hne (by rw [he1, he2, Prod.mk.eta]))

theorem mem_intRange (a b x : Int) : x ∈ intRange a b ↔ a ≤ x ∧ x ≤ b := by
  unfold intRange
  rw [List.mem_map]
  constructor
  · rintro ⟨k, hk, rfl⟩
    rw [List.mem_range] at hk
    omega
  · rintro ⟨h1, h2⟩
    refine ⟨(x - a).toNat, ?_, ?_⟩
    · rw [List.mem_range]
      omega
    · omega

theorem mul_self_le_bound (d r : Int) (hr : 0 ≤ r) (h : d * d ≤ r * r) :
    -r ≤ d ∧ d ≤ r := by
  constructor
  · by_contra hc
    push_neg at hc
    have h1 : r < -d := by omega
    have h2 : r * r < -d * -d := mul_self_lt_mul_self hr h1
    have h3 : -d * -d = d * d := by ring
    linarith
  · by_contra hc
    push_neg at hc
    have h2 : r * r < d * d := mul_self_lt_mul_self hr hc
    linarith

theorem mem_circlePoints (center : Point) (r : Int) (hr : 0 ≤ r) (u v : Int) :
    (u, v) ∈ circlePoints center r ↔
      (u - center.X) * (u - center.X) + (v - center.Y) * (v - center.Y) ≤ r * r := by
  unfold circlePoints
  rw [List.mem_flatMap]
  constructor
  · rintro ⟨x, hx, hmem⟩
    rw [List.mem_filterMap] at hmem
    obtain ⟨y, hy, hf⟩ := hmem
    by_cases hle : x * x + y * y ≤ r * r
    · rw [if_pos hle] at hf
      obtain ⟨he1, he2⟩ := Prod.mk.injEq .. ▸ Option.some.inj hf
      have hxu : u - center.X = x := by omega
      have hyv : v - center.Y = y := by omega
      rw [hxu, hyv]
      exact hle
    · rw [if_neg hle] at hf
      exact Option.noConfusion hf
  · intro hle
    have hx2 : (u - center.X) * (u - center.X) ≤ r * r := by
      have := mul_self_nonneg (v - center.Y)
      linarith
    have hy2 : (v - center.Y) * (v - center.Y) ≤ r * r := by
      have := mul_self_nonneg (u - center.X)
      linarith
    obtain ⟨hxl, hxr⟩ := mul_self_le_bound _ r hr hx2
    obtain ⟨hyl, hyr⟩ := mul_self_le_bound _ r hr hy2
    refine ⟨u - center.X, (mem_intRange _ _ _).mpr ⟨by omega, hxr⟩, ?_⟩
    rw [List.mem_filterMap]
    refine ⟨v - center.Y, (mem_intRange _ _ _).mpr ⟨by omega, hyr⟩, ?_⟩
    rw [if_pos hle]
    have he1 : center.X + (u - center.X) = u := by omega
    have he2 : center.Y + (v - center.Y) = v := by omega
    rw [he1, he2]

theorem rotData_length (d : List (List α)) (w h : Nat) (dflt : α) :
    (rotData d w h dflt).length = w := by
  unfold rotData
  rw [List.length_map, List.length_range]

theorem rotData_getD (d : List (List α)) (w h : Nat) (dflt : α) (r c : Nat)
    (hr : r < w) (hc : c < h) :
    ((rotData d w h dflt).getD r []).getD c dflt = (d.getD (h - 1 - c) []).getD r dflt := by
  unfold rotData
  rw [getD_map_range w r _ [] hr, getD_map_range h c _ dflt hc]

theorem rotData_row_length (d : List (List α)) (w h : Nat) (dflt : α) (r : Nat)
    (hr : r < w) : ((rotData d w h dflt).getD r []).length = h := by
  unfold rotData
  rw [getD_map_range w r _ [] hr, List.length_map, List.length_range]

theorem ext_getD (l₁ l₂ : List α) (d : α) (hlen : l₁.length = l₂.length)
    (h : ∀ i, i < l₁.length → l₁.getD i d = l₂.getD i d) : l₁ = l₂ := by
  apply List.ext_getElem hlen
  intro n h1 h2
  rw [← List.getD_eq_getElem l₁ d h1, ← List.getD_eq_getElem l₂ d h2]
  exact h n h1

theorem rotData_four (d : List (List α)) (w h : Nat) (dflt : α)
    (hlen : d.length = h) (hrow : ∀ r ∈ d, r.length = w) :
    rotData (rotData (rotData (rotData d w h dflt) h w dflt) w h dflt) h w dflt = d := by
  apply ext_getD _ _ ([] : List α)
  · rw [rotData_length, hlen]
  · intro i hi1
    have hiw : i < h := by
      have h' := hi1
      rwa [rotData_length] at h'
    have hid : i < d.length := by omega
    have hmem : d.getD i [] ∈ d := by
      rw [List.getD_eq_getElem d ([] : List α) hid]
      exact List.getElem_mem hid
    apply ext_getD _ _ dflt
    · rw [rotData_row_length _ _ _ _ _ hiw, hrow (d.getD i []) hmem]
    · intro j hj1
      have hjw : j < w := by
        have h' := hj1
        rwa [rotData_row_length _ _ _ _ _ hiw] at h'
      rw [rotData_getD _ h w dflt i j hiw hjw,
        rotData_getD _ w h dflt (w - 1 - j) i (by omega) hiw,
        rotData_getD _ h w dflt (h - 1 - i) (w - 1 - j) (by omega) (by omega),
        rotData_getD _ w h dflt (w - 1 - (w - 1 - j)) (h - 1 - i) (by omega) (by omega),
        show w - 1 - (w - 1 - j) = j by omega, show h - 1 - (h - 1 - i) = i by omega]

/-- `true` exactly on the error (`err`) outcome of a decode. -/
def DRes.isErr : DRes α → Bool
  | .err => true
  | _ => false

theorem drawLineLoop_succ (c : Pixel) (xi yi x y : Rat) (n : Nat) (g : PPM) :
    drawLineLoop c xi yi (n + 1) x y g
      = match g.Set (truncQ x) (truncQ y) c with
        | none => none
        | some g1 => drawLineLoop c xi yi n (flAdd x xi) (flAdd y yi) g1 := rfl

/-- C1: decode ∘ encode is the identity on structurally valid grids for
all four implemented encodings — bitmap ASCII (P1), bitmap binary (P4),
graymap ASCII (P2) and pixmap ASCII (P3) — provided the grid's magic
number matches the encoding and the printed dimensions (and the graymap
max value) fit in a 64-bit signed int, so that the decoder's integer
parses do not overflow. (The overflow proviso is the correction: see the
counterexample, a valid graymap with max `2^63` whose re-decode is an
error.) -/
theorem claim_C1 :
    (∀ p : PBM, p.valid → p.magicNumber = str "P1" →
      (p.width : Int) ≤ maxI64 → (p.height : Int) ≤ maxI64 → ReadPBM p.Save = .ok p) ∧
    (∀ p : PBM, p.valid → p.magicNumber = str "P4" →
      (p.width : Int) ≤ maxI64 → (p.height : Int) ≤ maxI64 → ReadPBM p.Save = .ok p) ∧
    (∀ g : PGM, g.valid → g.magicNumber = str "P2" →
      (g.width : Int) ≤ maxI64 → (g.height : Int) ≤ maxI64 → (g.max : Int) ≤ maxI64 →
      ReadPGM g.Save = .ok g) ∧
    (∀ p : PPM, p.valid → p.magicNumber = str "P3" →
      (p.width : Int) ≤ maxI64 → (p.height : Int) ≤ maxI64 → ReadPPM p.Save = .ok p) :=
  ⟨readPBM_save_p1, readPBM_save_p4, readPGM_save, readPPM_save⟩

/-- C1 witness: the round trips at concrete valid grids of each format. -/
theorem claim_C1_witness :
    ReadPBM (PBM.Save ⟨[[true, false]], 2, 1, str "P1"⟩)
      = .ok ⟨[[true, false]], 2, 1, str "P1"⟩ ∧
    ReadPBM (PBM.Save ⟨[[true, false]], 2, 1, str "P4"⟩)
      = .ok ⟨[[true, false]], 2, 1, str "P4"⟩ ∧
    ReadPGM (PGM.Save ⟨[[7, 200]], 2, 1, str "P2", 255⟩)
      = .ok ⟨[[7, 200]], 2, 1, str "P2", 255⟩ ∧
    ReadPPM (PPM.Save ⟨[[⟨1, 2, 3⟩]], 1, 1, str "P3", 255⟩)
      = .ok ⟨[[⟨1, 2, 3⟩]], 1, 1, str "P3", 255⟩ :=
  ⟨claim_C1.1 _ (by unfold PBM.valid; decide) rfl (by decide) (by decide),
   claim_C1.2.1 _ (by unfold PBM.valid; decide) rfl (by decide) (by decide),
   claim_C1.2.2.1 _ (by unfold PGM.valid; decide) rfl (by decide) (by decide) (by decide),
   claim_C1.2.2.2 _ (by unfold PPM.valid; decide) rfl (by decide) (by decide)⟩

/-- C1 counterexample: the 1×1 graymap with max value `2^63` is
structurally valid (its only sample, 0, is within the declared max), yet
decoding its encoding is an `Atoi` range error, not the original grid. -/
theorem claim_C1_counterexample :
    ReadPGM (PGM.Save ⟨[[0]], 1, 1, str "P2", 2 ^ 63⟩) = .err := by decide

/-- C2: drawing does NOT clip. A `Set` whose target cell is out of range
faults (Go panics; the model returns `none`), `DrawCircle` faults as soon
as any visited point is out of range, and it only succeeds when every
visited point is in range. (The claim's "silently skipped" behavior is
refuted by the counterexample.) -/
theorem claim_C2 :
    (∀ (p : PPM) (x y : Int) (c : Pixel), ¬ p.inB x y → p.Set x y c = none) ∧
    (∀ (p : PPM) (center : Point) (radius : Int) (c : Pixel),
      (∃ pt ∈ circlePoints center radius, ¬ p.inB pt.1 pt.2) →
        p.DrawCircle center radius c = none) ∧
    (∀ (p : PPM) (center : Point) (radius : Int) (c : Pixel),
      (∀ pt ∈ circlePoints center radius, p.inB pt.1 pt.2) →
        ∃ q, p.DrawCircle center radius c = some q) := by
  refine ⟨?_, ?_, ?_⟩
  · intro p x y c h
    exact (Set_none_iff p x y c).mpr h
  · intro p center radius c hex
    exact drawPoints_none c (circlePoints center radius) p hex
  · intro p center radius c hall
    exact drawPoints_some c (circlePoints center radius) p hall

/-- C2 witness: an out-of-range `Set` and `DrawCircle` fault at concrete
inputs; an all-in-range `DrawCircle` succeeds. -/
theorem claim_C2_witness :
    PPM.Set ⟨[[⟨0, 0, 0⟩]], 1, 1, str "P3", 255⟩ 5 5 ⟨1, 2, 3⟩ = none ∧
    PPM.DrawCircle ⟨[[⟨0, 0, 0⟩]], 1, 1, str "P3", 255⟩ ⟨9, 9⟩ 1 ⟨1, 2, 3⟩ = none ∧
    (PPM.DrawCircle ⟨[[⟨0, 0, 0⟩, ⟨0, 0, 0⟩, ⟨0, 0, 0⟩], [⟨0, 0, 0⟩, ⟨0, 0, 0⟩, ⟨0, 0, 0⟩],
      [⟨0, 0, 0⟩, ⟨0, 0, 0⟩, ⟨0, 0, 0⟩]], 3, 3, str "P3", 255⟩ ⟨1, 1⟩ 1
      ⟨255, 0, 0⟩).isSome = true := by
  refine ⟨claim_C2.1 _ 5 5 _ (by decide), claim_C2.2.1 _ _ 1 _ (by decide), ?_⟩
  obtain ⟨q, hq⟩ := claim_C2.2.2 ⟨[[⟨0, 0, 0⟩, ⟨0, 0, 0⟩, ⟨0, 0, 0⟩],
    [⟨0, 0, 0⟩, ⟨0, 0, 0⟩, ⟨0, 0, 0⟩], [⟨0, 0, 0⟩, ⟨0, 0, 0⟩, ⟨0, 0, 0⟩]], 3, 3,
    str "P3", 255⟩ ⟨1, 1⟩ 1 ⟨255, 0, 0⟩ (by decide)
  rw [hq]
  rfl

/-- C2 counterexample: a circle drawn entirely outside a 1×1 grid does
not silently skip its out-of-bounds pixels; the operation faults (`none`,
the index-out-of-range panic of the unchecked `data[y][x]` write). -/
theorem claim_C2_counterexample :
    PPM.DrawCircle ⟨[[⟨0, 0, 0⟩]], 1, 1, str "P3", 255⟩ ⟨5, 5⟩ 1 ⟨255, 0, 0⟩ = none := by
  decide

/-- C3: only the bitmap decoder reports malformed input. `ReadPBM` errors
when the magic line is missing and when the magic token is unsupported,
but `ReadPPM` NEVER returns an error: its `Fscan` error results are all
discarded, so missing or malformed header tokens and missing samples
decode to a zeroed partial grid (see the counterexample, where the empty
stream and a stream with an unknown magic decode to `ok`). -/
theorem claim_C3 :
    (∀ s : Bytes, readStringNL s = none → ReadPBM s = .err) ∧
    (∀ (s : Bytes) (ms : Bytes × Bytes), readStringNL s = some ms →
      trimSpace ms.1 ≠ str "P1" → trimSpace ms.1 ≠ str "P4" → ReadPBM s = .err) ∧
    (∀ s : Bytes, (ReadPPM s).isErr = false) := by
  refine ⟨?_, ?_, ?_⟩
  · intro s h
    unfold ReadPBM
    rw [h]
    rfl
  · intro s ms h h1 h2
    unfold ReadPBM
    rw [h, orErr_some, if_pos ⟨h1, h2⟩]
  · intro s
    simp only [ReadPPM]
    split
    · rfl
    · rfl

/-- C3 witness: the error returns and the never-erring pixmap decoder at
concrete streams. -/
theorem claim_C3_witness :
    ReadPBM [] = .err ∧ ReadPBM (str "P7\n") = .err ∧ (ReadPPM []).isErr = false :=
  ⟨claim_C3.1 [] (by decide),
   claim_C3.2.1 (str "P7\n") (str "P7\n", []) (by decide) (by decide) (by decide),
   claim_C3.2.2 []⟩

/-- C3 counterexample: the empty stream has no magic, no dimensions, no
max value and no samples, yet `ReadPPM` returns a grid (`ok`), not an
error; and `ReadPGM` accepts the unsupported magic "QQ", storing it
unvalidated. In both cases a partial/garbage grid reaches the caller. -/
theorem claim_C3_counterexample :
    ReadPPM (str "") = .ok ⟨[], 0, 0, [], 0⟩ ∧
    ReadPGM (str "QQ\n1 1\n255\n0\n") = .ok ⟨[[0]], 1, 1, str "QQ", 255⟩ := by
  constructor
  · decide
  · decide

/-- C4: the coincident-endpoints part of the claim holds — for `p1 = p2`
(with coordinates small enough that the float64 round trip is exact,
`|x|, |y| < 2^53`) `DrawLine` is exactly one `Set` at that point: the
point's pixel takes the draw color and no other pixel changes. (The
"both endpoints are always set" part is refuted by the counterexample.) -/
theorem claim_C4 (p : PPM) (pt : Point) (c : Pixel)
    (hx : pt.X.natAbs < 2 ^ 53) (hy : pt.Y.natAbs < 2 ^ 53) :
    p.DrawLine pt pt c = p.Set pt.X pt.Y c ∧
    ∀ q : PPM, p.Set pt.X pt.Y c = some q →
      q.At pt.X pt.Y = c ∧
      ∀ u v : Int, ¬(u = pt.X ∧ v = pt.Y) → q.At u v = p.At u v := by
  constructor
  · unfold PPM.DrawLine
    rw [sub_self, sub_self]
    simp only [Int.natAbs_zero, Nat.max_self]
    rw [drawLineLoop_succ, fl_intCast pt.X hx, fl_intCast pt.Y hy,
      truncQ_intCast pt.X, truncQ_intCast pt.Y]
    cases hset : p.Set pt.X pt.Y c with
    | none => rfl
    | some g1 => rfl
  · intro q hq
    exact ⟨At_Set_self p pt.X pt.Y c q hq,
      fun u v huv => At_Set_other p pt.X pt.Y c q hq u v huv⟩

/-- C4 witness: the single-point draw at a concrete 1×1 grid. -/
theorem claim_C4_witness :
    PPM.DrawLine ⟨[[⟨0, 0, 0⟩]], 1, 1, str "P3", 255⟩ ⟨0, 0⟩ ⟨0, 0⟩ ⟨9, 8, 7⟩
      = PPM.Set ⟨[[⟨0, 0, 0⟩]], 1, 1, str "P3", 255⟩ 0 0 ⟨9, 8, 7⟩ :=
  (claim_C4 ⟨[[⟨0, 0, 0⟩]], 1, 1, str "P3", 255⟩ ⟨0, 0⟩ ⟨9, 8, 7⟩
    (by decide) (by decide)).1

/-- C4 counterexample: on a 2×11 grid, drawing the line from the
in-bounds point (0,0) to the in-bounds point (1,10) leaves the endpoint
(1,10) black — the truncated float coordinate `x = 1 - ε` never reaches
column 1 — so the second endpoint does not hold the draw color. -/
theorem claim_C4_counterexample :
    (PPM.DrawLine ⟨List.replicate 11 (List.replicate 2 ⟨0, 0, 0⟩), 2, 11, str "P3", 255⟩
      ⟨0, 0⟩ ⟨1, 10⟩ ⟨255, 0, 0⟩).map (fun g => g.At 1 10) = some ⟨0, 0, 0⟩ := by
  decide

/-- C5: the decode and invert steps of the scenario are exactly as
claimed, but the bytes the encoder actually produces carry a trailing
space before each row's newline: `"P1\n3 2\n0 1 0 \n1 0 1 \n"`, not the
claimed `"P1\n3 2\n0 1 0\n1 0 1\n"` (see the counterexample). -/
theorem claim_C5 :
    ReadPBM (str "P1\n3 2\n1 0 1\n0 1 0\n")
      = .ok ⟨[[true, false, true], [false, true, false]], 3, 2, str "P1"⟩ ∧
    (PBM.Invert ⟨[[true, false, true], [false, true, false]], 3, 2, str "P1"⟩).data
      = [[false, true, false], [true, false, true]] ∧
    (PBM.Invert ⟨[[true, false, true], [false, true, false]], 3, 2, str "P1"⟩).Save
      = str "P1\n3 2\n0 1 0 \n1 0 1 \n" := by
  refine ⟨?_, ?_, ?_⟩
  · decide
  · decide
  · decide

/-- C5 counterexample: encoding the inverted grid does not produce the
claimed byte stream — each P1 row ends in `"1 "`/`"0 "`, leaving a space
before the newline. -/
theorem claim_C5_counterexample :
    (PBM.Invert ⟨[[true, false, true], [false, true, false]], 3, 2, str "P1"⟩).Save
      ≠ str "P1\n3 2\n0 1 0\n1 0 1\n" := by
  decide

/-- C6: a pixmap pixel converts to a dark bitmap pixel exactly when its
float luminance exceeds the fixed constant 128, independently of the
source max value; a graymap sample converts to dark exactly when it
exceeds `uint16(max) / 2` — i.e. `(max mod 2^16) / 2` with integer
division, NOT `max / 2` as claimed (see the counterexample with max
`65536`); the all-200 graymap scenario at max 255 does convert all-dark. -/
theorem claim_C6 :
    (∀ (p : PPM) (x y : Nat), x < p.width → y < p.height →
      ((PPM.ToPBM p).At x y = true ↔
        (128 : Rat) < lumF ((p.data.getD y []).getD x ⟨0, 0, 0⟩))) ∧
    (∀ (p : PPM) (m : Nat),
      PPM.ToPBM ⟨p.data, p.width, p.height, p.magicNumber, m⟩ = PPM.ToPBM p) ∧
    (∀ (g : PGM) (x y : Nat), x < g.width → y < g.height →
      ((PGM.ToPBM g).At x y = true ↔
        (g.max % 2 ^ 16) / 2 < (g.data.getD y []).getD x 0)) ∧
    (PGM.ToPBM ⟨[[200, 200], [200, 200]], 2, 2, str "P2", 255⟩).data
      = [[true, true], [true, true]] := by
  refine ⟨?_, ?_, ?_, ?_⟩
  · intro p x y hx hy
    simp only [PPM.ToPBM, PBM.At]
    rw [getD_map_range p.height y _ [] hy, getD_map_range p.width x _ false hx]
    exact decide_eq_true_iff
  · intro p m
    rfl
  · intro g x y hx hy
    simp only [PGM.ToPBM, PBM.At]
    rw [getD_map_range g.height y _ [] hy, getD_map_range g.width x _ false hx]
    exact decide_eq_true_iff
  · decide

/-- C6 witness: the two threshold characterizations at concrete one-pixel
images. -/
theorem claim_C6_witness :
    ((PPM.ToPBM ⟨[[⟨200, 200, 200⟩]], 1, 1, str "P3", 255⟩).At 0 0 = true ↔
      (128 : Rat) < lumF (([[(⟨200, 200, 200⟩ : Pixel)]].getD 0 []).getD 0 ⟨0, 0, 0⟩)) ∧
    ((PGM.ToPBM ⟨[[100]], 1, 1, str "P2", 255⟩).At 0 0 = true ↔
      (255 % 2 ^ 16) / 2 < (([[(100 : Nat)]].getD 0 []).getD 0 0)) :=
  ⟨claim_C6.1 _ 0 0 (by decide) (by decide), claim_C6.2.2.1 _ 0 0 (by decide) (by decide)⟩

/-- C6 counterexample: a graymap with max value 65536 and sample 100. The
claimed threshold says the pixel is light (`¬(65536 / 2 < 100)`), but the
code's `uint16(max)` truncates 65536 to 0, so the converted pixel is
dark. -/
theorem claim_C6_counterexample :
    (PGM.ToPBM ⟨[[100]], 1, 1, str "P2", 65536⟩).At 0 0 = true ∧ ¬ (65536 / 2 < 100) := by
  constructor
  · decide
  · decide

/-- C7: `Rotate90CW` swaps the dimension fields, moves the source cell at
column `x`, row `y` to the destination cell at column `height - 1 - y`,
row `x`, and on structurally valid grids applying it four times is the
identity — for both the pixmap (PPM) and the graymap (PGM) version. -/
theorem claim_C7 :
    (∀ p : PPM, (PPM.Rotate90CW p).width = p.height ∧ (PPM.Rotate90CW p).height = p.width) ∧
    (∀ (p : PPM) (x y : Nat), x < p.width → y < p.height →
      (((PPM.Rotate90CW p).data.getD x []).getD (p.height - 1 - y) ⟨0, 0, 0⟩
        = (p.data.getD y []).getD x ⟨0, 0, 0⟩)) ∧
    (∀ p : PPM, p.valid →
      PPM.Rotate90CW (PPM.Rotate90CW (PPM.Rotate90CW (PPM.Rotate90CW p))) = p) ∧
    (∀ g : PGM, (PGM.Rotate90CW g).width = g.height ∧ (PGM.Rotate90CW g).height = g.width) ∧
    (∀ (g : PGM) (x y : Nat), x < g.width → y < g.height →
      (((PGM.Rotate90CW g).data.getD x []).getD (g.height - 1 - y) 0
        = (g.data.getD y []).getD x 0)) ∧
    (∀ g : PGM, g.valid →
      PGM.Rotate90CW (PGM.Rotate90CW (PGM.Rotate90CW (PGM.Rotate90CW g))) = g) := by
  refine ⟨fun p => ⟨rfl, rfl⟩, ?_, ?_, fun g => ⟨rfl, rfl⟩, ?_, ?_⟩
  · intro p x y hx hy
    simp only [PPM.Rotate90CW]
    rw [rotData_getD p.data p.width p.height ⟨0, 0, 0⟩ x (p.height - 1 - y) hx (by omega),
      show p.height - 1 - (p.height - 1 - y) = y by omega]
  · intro p hv
    obtain ⟨hw, hh, hlen, hrow, hmax, hch⟩ := hv
    have hdata : (PPM.Rotate90CW (PPM.Rotate90CW (PPM.Rotate90CW (PPM.Rotate90CW p)))).data
        = p.data :=
      rotData_four p.data p.width p.height ⟨0, 0, 0⟩ hlen hrow
    exact congrArg (fun d => PPM.mk d p.width p.height p.magicNumber p.max) hdata
  · intro g x y hx hy
    simp only [PGM.Rotate90CW]
    rw [rotData_getD g.data g.width g.height 0 x (g.height - 1 - y) hx (by omega),
      show g.height - 1 - (g.height - 1 - y) = y by omega]
  · intro g hv
    obtain ⟨hw, hh, hlen, hrow, hsam⟩ := hv
    have hdata : (PGM.Rotate90CW (PGM.Rotate90CW (PGM.Rotate90CW (PGM.Rotate90CW g)))).data
        = g.data :=
      rotData_four g.data g.width g.height 0 hlen hrow
    exact congrArg (fun d => PGM.mk d g.width g.height g.magicNumber g.max) hdata

/-- C7 witness: the mapping and the 4-cycle at concrete grids. -/
theorem claim_C7_witness :
    ((PPM.Rotate90CW ⟨[[⟨1, 2, 3⟩, ⟨4, 5, 6⟩]], 2, 1, str "P3", 255⟩).data.getD 1 []).getD 0
        ⟨0, 0, 0⟩
      = (([[⟨1, 2, 3⟩, ⟨4, 5, 6⟩]] : List (List Pixel)).getD 0 []).getD 1 ⟨0, 0, 0⟩ ∧
    PPM.Rotate90CW (PPM.Rotate90CW (PPM.Rotate90CW (PPM.Rotate90CW
      ⟨[[⟨1, 2, 3⟩, ⟨4, 5, 6⟩]], 2, 1, str "P3", 255⟩)))
      = ⟨[[⟨1, 2, 3⟩, ⟨4, 5, 6⟩]], 2, 1, str "P3", 255⟩ ∧
    PGM.Rotate90CW (PGM.Rotate90CW (PGM.Rotate90CW (PGM.Rotate90CW
      ⟨[[9], [8]], 1, 2, str "P2", 255⟩)))
      = ⟨[[9], [8]], 1, 2, str "P2", 255⟩ :=
  ⟨claim_C7.2.1 _ 1 0 (by decide) (by decide),
   claim_C7.2.2.1 _ (by unfold PPM.valid; decide),
   claim_C7.2.2.2.2.2 _ (by unfold PGM.valid; decide)⟩

/-- C8: per pixel, `ToPGM` produces `uint8(0.299R + 0.587G + 0.114B)`
computed in float64 — modelled exactly as `truncQ (lumF px)`, the
toward-zero truncation of the rounded float sum — and copies the source
max value. This is NOT the exact `floor(0.299·R + 0.587·G + 0.114·B)` of
the claim: the float result can fall just below an integer the exact sum
reaches (see the counterexample). -/
theorem claim_C8 :
    (∀ (p : PPM) (x y : Nat), x < p.width → y < p.height →
      (PPM.ToPGM p).At x y
        = (truncQ (lumF ((p.data.getD y []).getD x ⟨0, 0, 0⟩))).toNat) ∧
    (∀ p : PPM, (PPM.ToPGM p).max = p.max) := by
  constructor
  · intro p x y hx hy
    simp only [PPM.ToPGM, PGM.At]
    rw [getD_map_range p.height y _ [] hy, getD_map_range p.width x _ 0 hx]
  · intro p
    rfl

/-- C8 witness: the float-luminance sample and the copied max value at
concrete pixmaps. -/
theorem claim_C8_witness :
    (PPM.ToPGM ⟨[[⟨200, 200, 200⟩]], 1, 1, str "P3", 255⟩).At 0 0
      = (truncQ (lumF (([[(⟨200, 200, 200⟩ : Pixel)]].getD 0 []).getD 0 ⟨0, 0, 0⟩))).toNat ∧
    (PPM.ToPGM ⟨[[⟨0, 0, 0⟩]], 1, 1, str "P3", 77⟩).max = 77 :=
  ⟨claim_C8.1 _ 0 0 (by decide) (by decide), claim_C8.2 _⟩

/-- C8 counterexample: the pixel (1,1,1). The exact luminance
`0.299 + 0.587 + 0.114` is exactly 1, so the claimed sample is
`floor = 1`; the float64 sum is `1 - 2^-53`, and the code's truncation
yields 0. -/
theorem claim_C8_counterexample :
    (PPM.ToPGM ⟨[[⟨1, 1, 1⟩]], 1, 1, str "P3", 255⟩).At 0 0 = 0 ∧
    ⌊(299 / 1000 : Rat) * 1 + (587 / 1000 : Rat) * 1 + (114 / 1000 : Rat) * 1⌋ = 1 := by
  constructor
  · decide
  · decide

/-- C9: `DrawCircle` and `DrawFilledCircle` are the same function, and
when the draw succeeds (with a nonnegative radius) it colors exactly the
integer points at squared distance at most `radius²` from the center:
those pixels take the draw color and every other pixel is unchanged. -/
theorem claim_C9 :
    PPM.DrawCircle = PPM.DrawFilledCircle ∧
    ∀ (p : PPM) (center : Point) (radius : Int) (c : Pixel) (q : PPM),
      0 ≤ radius → PPM.DrawCircle p center radius c = some q →
      ∀ u v : Int,
        ((u - center.X) * (u - center.X) + (v - center.Y) * (v - center.Y)
            ≤ radius * radius → q.At u v = c) ∧
        (¬((u - center.X) * (u - center.X) + (v - center.Y) * (v - center.Y)
            ≤ radius * radius) → q.At u v = p.At u v) := by
  constructor
  · rfl
  · intro p center radius c q hr h u v
    have hAt := drawPoints_At c (circlePoints center radius) p q h
    constructor
    · intro hle
      exact hAt.1 (u, v) ((mem_circlePoints center radius hr u v).mpr hle)
    · intro hgt
      exact hAt.2 u v (fun hmem => hgt ((mem_circlePoints center radius hr u v).mp hmem))

/-- C9 witness: the radius-1 disk on a 3×3 grid colors the right-hand
boundary pixel. -/
theorem claim_C9_witness :
    PPM.At ⟨[[⟨0, 0, 0⟩, ⟨255, 0, 0⟩, ⟨0, 0, 0⟩], [⟨255, 0, 0⟩, ⟨255, 0, 0⟩, ⟨255, 0, 0⟩],
      [⟨0, 0, 0⟩, ⟨255, 0, 0⟩, ⟨0, 0, 0⟩]], 3, 3, str "P3", 255⟩ 2 1 = ⟨255, 0, 0⟩ :=
  (claim_C9.2 ⟨[[⟨0, 0, 0⟩, ⟨0, 0, 0⟩, ⟨0, 0, 0⟩], [⟨0, 0, 0⟩, ⟨0, 0, 0⟩, ⟨0, 0, 0⟩],
      [⟨0, 0, 0⟩, ⟨0, 0, 0⟩, ⟨0, 0, 0⟩]], 3, 3, str "P3", 255⟩ ⟨1, 1⟩ 1 ⟨255, 0, 0⟩
    ⟨[[⟨0, 0, 0⟩, ⟨255, 0, 0⟩, ⟨0, 0, 0⟩], [⟨255, 0, 0⟩, ⟨255, 0, 0⟩, ⟨255, 0, 0⟩],
      [⟨0, 0, 0⟩, ⟨255, 0, 0⟩, ⟨0, 0, 0⟩]], 3, 3, str "P3", 255⟩
    (by decide) (by decide) 2 1).1 (by decide)

/-- C10: the depth conversions fix the output format identity — a pixmap
converts to a bitmap tagged "P1" (ASCII) and a graymap tagged "P2", while
a graymap converts to a bitmap tagged "P4" (binary) — and `PBM.Save`
dispatches on exactly that tag: a "P1" bitmap is written as ASCII
`"1 "`/`"0 "` tokens with a newline per row, a "P4" bitmap as bit-packed
row bytes. -/
theorem claim_C10 :
    (∀ p : PPM, (PPM.ToPBM p).magicNumber = str "P1") ∧
    (∀ p : PPM, (PPM.ToPGM p).magicNumber = str "P2") ∧
    (∀ g : PGM, (PGM.ToPBM g).magicNumber = str "P4") ∧
    (∀ b : PBM, b.magicNumber = str "P1" →
      b.Save = b.magicNumber ++ [10] ++ printNat b.width ++ [32] ++ printNat b.height ++ [10] ++
        (List.range b.height).flatMap (fun y =>
          (List.range b.width).flatMap (fun x =>
            if (b.data.getD y []).getD x false then str "1 " else str "0 ") ++ [10])) ∧
    (∀ b : PBM, b.magicNumber = str "P4" →
      b.Save = b.magicNumber ++ [10] ++ printNat b.width ++ [32] ++ printNat b.height ++ [10] ++
        (List.range b.height).flatMap (fun y =>
          packRow ((List.range b.width).map (fun x => (b.data.getD y []).getD x false)))) := by
  refine ⟨fun p => rfl, fun p => rfl, fun g => rfl, ?_, ?_⟩
  · intro b hm
    unfold PBM.Save
    rw [hm, if_pos rfl]
  · intro b hm
    unfold PBM.Save
    rw [hm, if_neg (by decide), if_pos rfl]

/-- C10 witness: the two save dispatches at concrete one-pixel bitmaps. -/
theorem claim_C10_witness :
    PBM.Save ⟨[[true]], 1, 1, str "P1"⟩ = str "P1\n1 1\n1 \n" ∧
    PBM.Save ⟨[[true]], 1, 1, str "P4"⟩ = str "P4\n1 1\n" ++ [128] :=
  ⟨claim_C10.2.2.2.1 ⟨[[true]], 1, 1, str "P1"⟩ rfl,
   claim_C10.2.2.2.2 ⟨[[true]], 1, 1, str "P4"⟩ rfl⟩
